import Mathlib

/-!
# Verification of the in-memory vector search / retrieval engine

Shallow embedding of `processing/indexing.py` (classes `VectorStore` and
`SearchEngine`) and of the `VectorIndex` class of `processing/embeddings.py`.

Modelling conventions:

* Python floats appearing in the data (vector components, thresholds, keyword
  scores) are modelled as rationals `ℚ`; cosine-similarity scores, which
  involve square roots, are modelled as real numbers `ℝ`.
* A Python dict is modelled as an insertion-ordered association list.
  Assignment `d[k] = v` replaces the value in place when the key is present
  and appends the binding otherwise, exactly as CPython dicts behave.
* numpy semantics for a zero-norm stored vector: `dot/(0 * ‖q‖)` is `0/0`,
  which numpy evaluates to NaN, and `NaN >= threshold` is `False`, so such an
  entry is never kept.  This is modelled by an `Option ℝ` similarity that is
  `none` exactly when the stored vector has zero norm (the query norm being
  guarded earlier), together with a filter that drops `none`.
* Python's stable sort `list.sort(key=..., reverse=True)` is modelled by
  `List.mergeSort` with the corresponding boolean comparator; both are stable
  sorts for the same comparator, hence produce the same list.
* Python slicing `l[:k]` is modelled by `pySlice`, including the negative-`k`
  behaviour (`l[:-n]` drops the last `n` elements).
* CPython's randomized string `hash` is an unspecified function of the
  process; it is carried as a field `pyhash : String → ℕ` of the engine
  (already reduced modulo the `% 1000` in the source).
* CPython set iteration order is unspecified; `set(xs)` used for iteration is
  modelled as first-occurrence deduplication of `xs`.
-/

namespace FinRag

/-- Scalar values stored in a document record (Python dict values). -/
inductive Val where
  | str (s : String)
  | num (q : ℚ)
deriving DecidableEq

/-- A Python dict used as a document/metadata record: an insertion-ordered
association list from string keys to scalar values. -/
abbrev Doc := List (String × Val)

/-- Dict lookup `d.get(k)`: value of the first (unique) binding of `k`. -/
def assocGet? {β : Type} (l : List (String × β)) (k : String) : Option β :=
  (l.find? (fun p => p.1 == k)).map (fun p => p.2)

/-- Dict assignment `d[k] = v`: replace in place if `k` is bound, else append. -/
def assocSet {β : Type} : List (String × β) → String → β → List (String × β)
  | [], k, v => [(k, v)]
  | (k', v') :: rest, k, v =>
    if k' = k then (k, v) :: rest else (k', v') :: assocSet rest k v

/-- `item.get(k, '')` as used in f-string interpolation: a missing key yields
the empty string, a numeric value is formatted. -/
def pyStrGet (d : Doc) (k : String) : String :=
  match assocGet? d k with
  | some (Val.str s) => s
  | some (Val.num q) => toString q
  | none => ""

/-- Splitting a character list on whitespace runs, accumulating the current
word in reverse; the structural core of Python's `str.split()`. -/
def splitWsAux : List Char → List Char → List (List Char)
  | [], cur => if cur = [] then [] else [cur.reverse]
  | c :: cs, cur =>
    if c.isWhitespace then
      if cur = [] then splitWsAux cs [] else cur.reverse :: splitWsAux cs []
    else splitWsAux cs (c :: cur)

/-- Python `text.lower()` (ASCII case folding, as in the indexed data). -/
def pyLower (s : String) : String := (s.data.map Char.toLower).asString

/-- Python `text.split()`: split on whitespace runs, dropping empty pieces. -/
def pyWords (s : String) : List String :=
  (splitWsAux s.data []).map List.asString

/-- First-occurrence deduplication with an explicit seen-accumulator; models
iterating over Python `set(xs)` (whose true order is unspecified). -/
def dedupFirstAux : List String → List String → List String
  | [], _ => []
  | x :: xs, seen =>
    if x ∈ seen then dedupFirstAux xs seen else x :: dedupFirstAux xs (x :: seen)

/-- `set(xs)` enumerated in first-occurrence order. -/
def dedupFirst (l : List String) : List String := dedupFirstAux l []

/-- The distinct tokens of `set(text.lower().split())`. -/
def pyTokens (s : String) : List String := dedupFirst (pyWords (pyLower s))

/-- Python slice `l[:k]` for an `int` bound `k`: for `k ≥ 0` the first `k`
elements, for `k < 0` all but the last `|k|` elements. -/
def pySlice {α : Type} (l : List α) (k : ℤ) : List α :=
  if 0 ≤ k then l.take k.toNat else l.take (l.length - k.natAbs)

/-- `np.dot` of two float vectors (trailing elements of a longer vector are
irrelevant for the equal-length vectors handled by the stores). -/
def dot (v w : List ℚ) : ℚ := ((v.zip w).map (fun p => p.1 * p.2)).sum

/-- Squared euclidean norm, `np.linalg.norm(v)**2`, exact in `ℚ`. -/
def normSq (v : List ℚ) : ℚ := dot v v

/-- `np.linalg.norm(v)` as a real number. -/
noncomputable def rnorm (v : List ℚ) : ℝ := Real.sqrt ((normSq v : ℚ) : ℝ)

/-- Cosine similarity `np.dot(v, q) / (np.linalg.norm(v) * np.linalg.norm(q))`. -/
noncomputable def cosineSim (v q : List ℚ) : ℝ :=
  ((dot v q : ℚ) : ℝ) / (rnorm v * rnorm q)

/-- The similarity value the numpy computation yields for a stored vector `v`
against a query `q` of non-zero norm: `none` models the NaN produced by the
`0/0` division when `v` has zero norm (NaN fails every `>=` comparison). -/
noncomputable def simVal? (v q : List ℚ) : Option ℝ :=
  if normSq v = 0 then none else some (cosineSim v q)

/-- Descending-by-first-component comparator, the boolean comparator realizing
Python's `sort(key=lambda x: x[0], reverse=True)`. -/
noncomputable def descByFst {δ : Type} (a b : ℝ × δ) : Bool := decide (b.1 ≤ a.1)

/-- Descending-by-second-component comparator for `sorted(items, key=lambda
x: x[1], reverse=True)` on keyword scores. -/
def descBySnd {γ : Type} (a b : γ × ℚ) : Bool := decide (b.2 ≤ a.2)

/-- `VectorStore` of `processing/indexing.py`: parallel arrays of vectors and
metadata, a doc-id → position dict, and the staleness flag.  The derived
`vectors_array` cache is not part of the state: it is rebuilt before any
search that needs it (`add` always resets `index_built`). -/
structure VectorStore where
  dimension : ℕ
  vectors : List (List ℚ)
  metadata : List Doc
  id_to_index : List (String × ℕ)
  index_built : Bool

/-- `VectorStore.__init__(dimension)`. -/
def VectorStore.mk0 (dimension : ℕ) : VectorStore :=
  { dimension := dimension, vectors := [], metadata := [], id_to_index := [],
    index_built := false }

/-- `VectorStore.add`: dimension check, id generation, parallel append.
The Python `ValueError` is modelled as an `Except.error`. -/
def VectorStore.add (s : VectorStore) (vector : List ℚ) (meta : Doc)
    (doc_id : Option String) : Except String VectorStore :=
  if vector.length ≠ s.dimension then
    Except.error "DimensionMismatch"
  else
    let d := doc_id.getD ("doc_" ++ toString s.vectors.length)
    Except.ok { s with
      vectors := s.vectors ++ [vector]
      metadata := s.metadata ++ [meta]
      id_to_index := assocSet s.id_to_index d s.vectors.length
      index_built := false }

/-- The `results` list built by the filtering loop of `VectorStore.search`:
entries (in insertion order) whose similarity is defined and `>= threshold`. -/
noncomputable def VectorStore.candidates (s : VectorStore) (query_vector : List ℚ)
    (threshold : ℚ) : List (ℝ × Doc) :=
  (s.vectors.zip s.metadata).filterMap (fun p =>
    match simVal? p.1 query_vector with
    | none => none
    | some sim => if (threshold : ℝ) ≤ sim then some (sim, p.2) else none)

/-- `VectorStore.search`: empty store and zero-norm query yield `[]`; otherwise
filter by threshold, stable-sort by score descending, slice to `top_k`. -/
noncomputable def VectorStore.search (s : VectorStore) (query_vector : List ℚ)
    (top_k : ℤ) (threshold : ℚ) : List (ℝ × Doc) :=
  if s.vectors = [] then []
  else if normSq query_vector = 0 then []
  else pySlice ((s.candidates query_vector threshold).mergeSort descByFst) top_k

/-- The JSON payload written by `VectorStore.save`; the file system and the
exact JSON round-trip of these fields are modelled by the value itself. -/
structure SavedStore where
  dimension : ℕ
  vectors : List (List ℚ)
  metadata : List Doc
  id_to_index : List (String × ℕ)

/-- `VectorStore.save(filepath)`: serialize dimension, vectors, metadata and
id map. -/
def VectorStore.save (s : VectorStore) : SavedStore :=
  { dimension := s.dimension, vectors := s.vectors, metadata := s.metadata,
    id_to_index := s.id_to_index }

/-- `VectorStore.load(filepath)` on success: replace all fields from the file
and mark the index stale. -/
def VectorStore.load (_s : VectorStore) (data : SavedStore) : VectorStore :=
  { dimension := data.dimension, vectors := data.vectors,
    metadata := data.metadata, id_to_index := data.id_to_index,
    index_built := false }

/-- `SearchEngine` of `processing/indexing.py`: three category stores plus the
inverted keyword index (`defaultdict(list)`, insertion-ordered).  `pyhash`
carries the process's (randomized) Python string hash, already reduced to a
natural number as `hash(x) % 1000` is in the source. -/
structure SearchEngine where
  dimension : ℕ
  pyhash : String → ℕ
  news_store : VectorStore
  stocks_store : VectorStore
  portfolio_store : VectorStore
  keyword_index : List (String × List String)

/-- `SearchEngine.__init__(dimension)` given the process hash function. -/
def SearchEngine.mk0 (dimension : ℕ) (h : String → ℕ) : SearchEngine :=
  { dimension := dimension, pyhash := h,
    news_store := VectorStore.mk0 dimension,
    stocks_store := VectorStore.mk0 dimension,
    portfolio_store := VectorStore.mk0 dimension,
    keyword_index := [] }

/-- `self.keyword_index[word].append(doc_id)` on a `defaultdict(list)`:
append to the posting list in place, or create the entry at the end. -/
def appendPosting : List (String × List String) → String → String →
    List (String × List String)
  | [], w, d => [(w, [d])]
  | (w', l) :: rest, w, d =>
    if w' = w then (w', l ++ [d]) :: rest else (w', l) :: appendPosting rest w d

/-- Register every word of `words` for `doc_id` in the keyword index. -/
def indexKeywords (ki : List (String × List String)) (words : List String)
    (doc_id : String) : List (String × List String) :=
  words.foldl (fun acc w => appendPosting acc w doc_id) ki

/-- The two in-place assignments `item['doc_id'] = doc_id;
item['doc_type'] = t` performed by the `index_*` methods. -/
def tagDoc (item : Doc) (doc_id : String) (doc_type : String) : Doc :=
  assocSet (assocSet item "doc_id" (Val.str doc_id)) "doc_type" (Val.str doc_type)

/-- Loop body sequence of `SearchEngine.index_news` over
`enumerate(zip(news_data, embeddings))`. -/
def SearchEngine.indexNewsGo (e : SearchEngine) :
    List (ℕ × (Doc × List ℚ)) → Except String SearchEngine
  | [] => Except.ok e
  | (i, (news_item, embedding)) :: rest =>
    let doc_id := "news_" ++ toString i
    let item := tagDoc news_item doc_id "news"
    match e.news_store.add embedding item (some doc_id) with
    | Except.error msg => Except.error msg
    | Except.ok ns =>
      let text := pyStrGet item "title" ++ " " ++ pyStrGet item "summary"
      SearchEngine.indexNewsGo
        { e with news_store := ns,
                 keyword_index := indexKeywords e.keyword_index (pyTokens text) doc_id }
        rest

/-- `SearchEngine.index_news(news_data, embeddings)`; note the silent
`zip` pairing of the two lists. -/
def SearchEngine.index_news (e : SearchEngine) (news_data : List Doc)
    (embeddings : List (List ℚ)) : Except String SearchEngine :=
  e.indexNewsGo ((news_data.zip embeddings).enum)

/-- Loop body sequence of `SearchEngine.index_stocks`. -/
def SearchEngine.indexStocksGo (e : SearchEngine) :
    List (ℕ × (Doc × List ℚ)) → Except String SearchEngine
  | [] => Except.ok e
  | (i, (stock_item, embedding)) :: rest =>
    let doc_id := "stock_" ++ toString i
    let item := tagDoc stock_item doc_id "stock"
    match e.stocks_store.add embedding item (some doc_id) with
    | Except.error msg => Except.error msg
    | Except.ok ns =>
      let text := pyStrGet item "name" ++ " " ++ pyStrGet item "sector"
      SearchEngine.indexStocksGo
        { e with stocks_store := ns,
                 keyword_index := indexKeywords e.keyword_index (pyTokens text) doc_id }
        rest

/-- `SearchEngine.index_stocks(stock_data, embeddings)`. -/
def SearchEngine.index_stocks (e : SearchEngine) (stock_data : List Doc)
    (embeddings : List (List ℚ)) : Except String SearchEngine :=
  e.indexStocksGo ((stock_data.zip embeddings).enum)

/-- Loop body sequence of `SearchEngine.index_portfolio` (no keyword
indexing for portfolio items). -/
def SearchEngine.indexPortfolioGo (e : SearchEngine) :
    List (ℕ × (Doc × List ℚ)) → Except String SearchEngine
  | [] => Except.ok e
  | (i, (portfolio_item, embedding)) :: rest =>
    let doc_id := "portfolio_" ++ toString i
    let item := tagDoc portfolio_item doc_id "portfolio"
    match e.portfolio_store.add embedding item (some doc_id) with
    | Except.error msg => Except.error msg
    | Except.ok ns =>
      SearchEngine.indexPortfolioGo { e with portfolio_store := ns } rest

/-- `SearchEngine.index_portfolio(portfolio_data, embeddings)`. -/
def SearchEngine.index_portfolio (e : SearchEngine) (portfolio_data : List Doc)
    (embeddings : List (List ℚ)) : Except String SearchEngine :=
  e.indexPortfolioGo ((portfolio_data.zip embeddings).enum)

/-- `SearchEngine._create_query_embedding`: the deterministic stub embedding
`[hash(f"{query}_{i}") % 1000 / 1000 for i in range(dimension)]`. -/
def SearchEngine.createQueryEmbedding (e : SearchEngine) (query : String) :
    List ℚ :=
  (List.range e.dimension).map
    (fun i => ((e.pyhash (query ++ "_" ++ toString i) % 1000 : ℕ) : ℚ) / 1000)

/-- `doc_scores[doc_id] += 1` on a `defaultdict(float)`. -/
def bumpScore : List (String × ℚ) → String → List (String × ℚ)
  | [], d => [(d, 1)]
  | (d', c) :: rest, d =>
    if d' = d then (d', c + 1) :: rest else (d', c) :: bumpScore rest d

/-- The `doc_scores` dict of `SearchEngine._keyword_search` after the scoring
loops over the query words and their posting lists. -/
def SearchEngine.docScores (e : SearchEngine) (query_words : List String) :
    List (String × ℚ) :=
  query_words.foldl (fun sc w =>
    match assocGet? e.keyword_index w with
    | some postings => postings.foldl bumpScore sc
    | none => sc) []

/-- Probe the three stores in order (news, stocks, portfolio) and return the
metadata of the first store whose `id_to_index` knows `doc_id`. -/
def SearchEngine.lookupMetadata (e : SearchEngine) (doc_id : String) :
    Option Doc :=
  match assocGet? e.news_store.id_to_index doc_id with
  | some idx => e.news_store.metadata.get? idx
  | none =>
    match assocGet? e.stocks_store.id_to_index doc_id with
    | some idx => e.stocks_store.metadata.get? idx
    | none =>
      match assocGet? e.portfolio_store.id_to_index doc_id with
      | some idx => e.portfolio_store.metadata.get? idx
      | none => none

/-- `SearchEngine._keyword_search(query, top_k)`: score by distinct-token
overlap, stable-sort the dict items by score descending, slice to `top_k`,
normalize by the distinct query-token count and resolve metadata. -/
def SearchEngine.keywordSearch (e : SearchEngine) (query : String)
    (top_k : ℤ) : List (ℚ × Doc) :=
  let query_words := pyTokens query
  let doc_scores := e.docScores query_words
  (pySlice (doc_scores.mergeSort descBySnd) top_k).filterMap
    (fun p => (e.lookupMetadata p.1).map
      (fun m => (p.2 / (query_words.length : ℚ), m)))

/-- The concatenated per-category vector-search candidates of
`SearchEngine.search` (each store is consulted only when requested and
non-empty; the default threshold `0.0` is used). -/
noncomputable def SearchEngine.vectorCandidates (e : SearchEngine)
    (doc_types : List String) (qe : List ℚ) (top_k : ℤ) : List (ℝ × Doc) :=
  (if "news" ∈ doc_types ∧ e.news_store.vectors ≠ [] then
      e.news_store.search qe top_k 0 else []) ++
  (if "stock" ∈ doc_types ∧ e.stocks_store.vectors ≠ [] then
      e.stocks_store.search qe top_k 0 else []) ++
  (if "portfolio" ∈ doc_types ∧ e.portfolio_store.vectors ≠ [] then
      e.portfolio_store.search qe top_k 0 else [])

/-- The `all_results` list of `SearchEngine.search`: vector candidates
followed by the keyword-search candidates. -/
noncomputable def SearchEngine.allCandidates (e : SearchEngine) (query : String)
    (top_k : ℤ) (doc_types : List String) : List (ℝ × Doc) :=
  e.vectorCandidates doc_types (e.createQueryEmbedding query) top_k ++
  (e.keywordSearch query top_k).map (fun p => ((p.1 : ℝ), p.2))

/-- Python truthiness of a dict value, as tested by `if doc_id and ...`. -/
def truthy : Val → Bool
  | Val.str s => s ≠ ""
  | Val.num q => q ≠ 0

/-- The deduplication key of a result entry: its `doc_id` value when present
and truthy, else `none` (such entries are dropped by the dedup loop). -/
def idOf? (p : ℝ × Doc) : Option Val :=
  match assocGet? p.2 "doc_id" with
  | some v => if truthy v then some v else none
  | none => none

/-- The `seen_ids`/`unique_results` loop of `SearchEngine.search`: keep the
first occurrence of each truthy `doc_id`, drop entries without one. -/
def dedupByDocId : List (ℝ × Doc) → List Val → List (ℝ × Doc)
  | [], _ => []
  | p :: rest, seen =>
    match idOf? p with
    | some v =>
      if v ∈ seen then dedupByDocId rest seen
      else p :: dedupByDocId rest (v :: seen)
    | none => dedupByDocId rest seen

/-- `SearchEngine.search(query, top_k, doc_types)`: fan out to the requested
category stores and the keyword search, merge, stable-sort by score
descending, deduplicate by `doc_id`, slice to `top_k`. -/
noncomputable def SearchEngine.search (e : SearchEngine) (query : String)
    (top_k : ℤ) (doc_types : Option (List String)) : List (ℝ × Doc) :=
  let dts := doc_types.getD ["news", "stock", "portfolio"]
  let all_results := e.allCandidates query top_k dts
  pySlice (dedupByDocId (all_results.mergeSort descByFst) []) top_k

/-- `VectorIndex` of `processing/embeddings.py` (state only; the
`vectors_array` cache is rebuilt before use exactly as for `VectorStore`). -/
structure VectorIndex where
  dimension : ℕ
  vectors : List (List ℚ)
  metadata : List Doc
  index_built : Bool

/-- Descending argsort of `np.argsort(similarities)[::-1]` modelled with a
stable sort on the index list (numpy's default quicksort leaves the relative
order of equal similarities unspecified; only searches reaching this point
with pairwise-distinct similarities are order-determined). -/
noncomputable def argsortDesc (sims : ℕ → ℝ) (n : ℕ) : List ℕ :=
  ((List.range n).mergeSort (fun i j => decide (sims j ≤ sims i)))

/-- `VectorIndex.search`: returns `[]` when the store is empty, when the
query has zero norm, or when ANY stored vector has zero norm (the
`np.any(vectors_norm == 0)` guard); otherwise ranks all entries by cosine
similarity descending. -/
noncomputable def VectorIndex.search (s : VectorIndex) (query_vector : List ℚ)
    (top_k : ℤ) : List (ℝ × Doc) :=
  if s.vectors = [] then []
  else if normSq query_vector = 0 ∨ s.vectors.any (fun v => normSq v == 0) then []
  else
    let sims := fun i => cosineSim ((s.vectors.get? i).getD []) query_vector
    (pySlice (argsortDesc sims s.vectors.length) top_k).filterMap
      (fun i => (s.metadata.get? i).map (fun m => (sims i, m)))

/-! ## Generic helper lemmas -/

theorem pySlice_nonneg {α : Type} (l : List α) (k : ℤ) (hk : 0 ≤ k) :
    pySlice l k = l.take k.toNat := by
  simp [pySlice, hk]

theorem pySlice_neg {α : Type} (l : List α) (k : ℤ) (hk : k < 0) :
    pySlice l k = l.take (l.length - k.natAbs) := by
  simp [pySlice, not_le.mpr hk]

theorem mem_pySlice {α : Type} {l : List α} {k : ℤ} {x : α}
    (h : x ∈ pySlice l k) : x ∈ l := by
  unfold pySlice at h
  split at h <;> exact List.mem_of_mem_take h

/-- A Bool comparator of the form `decide (key b ≤ key a)` is transitive. -/
theorem descKey_trans {α κ : Type} [LinearOrder κ] (key : α → κ) :
    ∀ a b c : α, decide (key b ≤ key a) → decide (key c ≤ key b) →
      decide (key c ≤ key a) := by
  intro a b c hab hbc
  simp only [decide_eq_true_eq] at *
  exact le_trans hbc hab

/-- A Bool comparator of the form `decide (key b ≤ key a)` is total. -/
theorem descKey_total {α κ : Type} [LinearOrder κ] (key : α → κ) :
    ∀ a b : α, decide (key b ≤ key a) || decide (key a ≤ key b) := by
  intro a b
  rcases le_total (key b) (key a) with h | h <;> simp [h]

/-- Characterization of a stable descending sort by a key: the result of
`mergeSort` with comparator `decide (key b ≤ key a)` is the projection of a
permutation of the position-decorated input that is sorted by key descending
with ties broken by ascending original position. -/
theorem mergeSort_descKey_spec {α κ : Type} [LinearOrder κ] (key : α → κ)
    (l : List α) :
    ∃ dl : List (ℕ × α),
      dl.Perm l.enum ∧
      dl.Pairwise (fun a b =>
        key b.2 < key a.2 ∨ (key a.2 = key b.2 ∧ a.1 ≤ b.1)) ∧
      l.mergeSort (fun a b => decide (key b ≤ key a)) = dl.map (fun e => e.2) := by
  refine ⟨l.enum.mergeSort (List.enumLE (fun a b => decide (key b ≤ key a))), ?_, ?_, ?_⟩
  · exact List.mergeSort_perm _ _
  · have hs := List.sorted_mergeSort
      (List.enumLE_trans (descKey_trans key))
      (List.enumLE_total (descKey_total key)) l.enum
    refine hs.imp ?_
    intro a b h
    simp only [List.enumLE] at h
    split at h
    · rename_i h1
      split at h
      · rename_i h2
        simp only [decide_eq_true_eq] at h h1 h2
        exact Or.inr ⟨le_antisymm h2 h1, h⟩
      · rename_i h2
        simp only [decide_eq_true_eq] at h1 h2
        exact Or.inl (lt_of_le_not_le h1 h2)
    · simp at h
  · exact (List.mergeSort_enum).symm

/-! ## Basic facts about the embedded operations -/

theorem assocGet?_cons {β : Type} (pk : String) (pv : β) (rest : List (String × β))
    (k : String) :
    assocGet? ((pk, pv) :: rest) k = if pk = k then some pv else assocGet? rest k := by
  by_cases h : pk = k
  · simp [assocGet?, List.find?, h]
  · have hb : (pk == k) = false := beq_eq_false_iff_ne.mpr h
    simp [assocGet?, List.find?, hb, h]

theorem assocGet?_assocSet {β : Type} (l : List (String × β)) (k k' : String)
    (v : β) :
    assocGet? (assocSet l k v) k' = if k' = k then some v else assocGet? l k' := by
  induction l with
  | nil =>
    by_cases h : k' = k
    · subst h; simp [assocSet, assocGet?, List.find?]
    · have hb : (k == k') = false := beq_eq_false_iff_ne.mpr (fun hh => h hh.symm)
      simp [assocSet, assocGet?, List.find?, hb, h]
  | cons p rest ih =>
    obtain ⟨pk, pv⟩ := p
    simp only [assocSet]
    by_cases hpk : pk = k
    · subst hpk
      rw [if_pos rfl, assocGet?_cons, assocGet?_cons]
      clear ih
      split_ifs <;> simp_all
    · rw [if_neg hpk, assocGet?_cons, assocGet?_cons, ih]
      clear ih
      split_ifs <;> simp_all

theorem tagDoc_get (item : Doc) (doc_id doc_type : String) (k : String) :
    assocGet? (tagDoc item doc_id doc_type) k =
      if k = "doc_type" then some (Val.str doc_type)
      else if k = "doc_id" then some (Val.str doc_id)
      else assocGet? item k := by
  unfold tagDoc
  rw [assocGet?_assocSet, assocGet?_assocSet]

theorem mem_candidates_iff (s : VectorStore) (q : List ℚ) (t : ℚ)
    (x : ℝ × Doc) :
    x ∈ s.candidates q t ↔
      ∃ pr ∈ s.vectors.zip s.metadata,
        simVal? pr.1 q = some x.1 ∧ (t : ℝ) ≤ x.1 ∧ x.2 = pr.2 := by
  obtain ⟨xr, xd⟩ := x
  unfold VectorStore.candidates
  rw [List.mem_filterMap]
  constructor
  · rintro ⟨p, hp, hf⟩
    rcases hsv : simVal? p.1 q with _ | r
    · simp only [hsv] at hf
      exact Option.noConfusion hf
    · simp only [hsv] at hf
      split_ifs at hf with ht
      cases hf
      exact ⟨p, hp, hsv, ht, rfl⟩
  · rintro ⟨p, hp, hs', ht, hx⟩
    refine ⟨p, hp, ?_⟩
    simp only [hs']
    simp [ht, ← hx]

theorem mem_pySlice_mergeSort {l : List (ℝ × Doc)} {k : ℤ} {p : ℝ × Doc}
    (h : p ∈ pySlice (l.mergeSort descByFst) k) : p ∈ l :=
  (List.mem_mergeSort).mp (mem_pySlice h)

theorem search_eq_slice (s : VectorStore) (q : List ℚ) (t : ℚ) (k : ℤ)
    (hq : normSq q ≠ 0) :
    s.search q k t = pySlice ((s.candidates q t).mergeSort descByFst) k := by
  unfold VectorStore.search
  by_cases hv : s.vectors = []
  · have : s.candidates q t = [] := by
      unfold VectorStore.candidates
      rw [hv]; rfl
    simp [hv, hq, this, pySlice]
  · simp [hv, hq]

theorem mem_search {s : VectorStore} {q : List ℚ} {t : ℚ} {k : ℤ} {p : ℝ × Doc}
    (h : p ∈ s.search q k t) : p ∈ s.candidates q t := by
  unfold VectorStore.search at h
  split at h
  · cases h
  · split at h
    · cases h
    · exact mem_pySlice_mergeSort h

/-! ## C3: save/load round-trip -/

/-- **C3**: saving a store and loading the result into a fresh store of the
same dimension reproduces identical `search` results for every query vector
and every `top_k` (and every threshold). -/
theorem save_load_roundtrip (store fresh : VectorStore)
    (hdim : fresh.dimension = store.dimension) (q : List ℚ) (k : ℤ) (t : ℚ) :
    (fresh.load store.save).search q k t = store.search q k t := rfl

/-- A store holding one one-dimensional vector, used as a concrete witness. -/
def vsOne : VectorStore :=
  { dimension := 1, vectors := [[1]], metadata := [[("title", Val.str "t")]],
    id_to_index := [("doc_0", 0)], index_built := false }

theorem save_load_roundtrip_witness :
    ((VectorStore.mk0 1).load vsOne.save).search [1] 5 0 = vsOne.search [1] 5 0 :=
  save_load_roundtrip vsOne (VectorStore.mk0 1) rfl [1] 5 0

/-! ## C4: dimension check in `add` -/

/-- **C4**: `add` fails (with the dimension-mismatch error) exactly when the
vector length differs from the store dimension; on a matching length it
succeeds, grows `vectors` by exactly one and resets `index_built`. -/
theorem vectorStore_add_spec (s : VectorStore) (v : List ℚ) (m : Doc)
    (oid : Option String) :
    ((∃ msg, s.add v m oid = Except.error msg) ↔ v.length ≠ s.dimension) ∧
    (v.length = s.dimension →
      ∃ s', s.add v m oid = Except.ok s' ∧
        s'.vectors.length = s.vectors.length + 1 ∧ s'.index_built = false) := by
  unfold VectorStore.add
  by_cases h : v.length = s.dimension
  · simp [h]
  · simp [h]

theorem vectorStore_add_spec_witness :
    ∃ s', (VectorStore.mk0 1).add [1] [] none = Except.ok s' ∧
      s'.vectors.length = (VectorStore.mk0 1).vectors.length + 1 ∧
      s'.index_built = false :=
  (vectorStore_add_spec (VectorStore.mk0 1) [1] [] none).2 rfl

/-! ## C5: search = filter, stable descending sort, truncation -/

/-- **C5**: for a query of non-zero norm and positive `top_k`,
`VectorStore.search` returns exactly the stored entries whose (defined)
cosine similarity is `≥ threshold` — first conjunct — arranged as a
permutation sorted by score descending with ties in original insertion order
and truncated to the first `top_k` — second conjunct — and in particular no
returned score is below the threshold — third conjunct. -/
theorem vectorStore_search_spec (s : VectorStore) (q : List ℚ) (t : ℚ) (k : ℤ)
    (hq : normSq q ≠ 0) (hk : 0 < k) :
    (∀ x : ℝ × Doc, x ∈ s.candidates q t ↔
       ∃ pr ∈ s.vectors.zip s.metadata,
         simVal? pr.1 q = some x.1 ∧ (t : ℝ) ≤ x.1 ∧ x.2 = pr.2) ∧
    (∃ dl : List (ℕ × (ℝ × Doc)),
       dl.Perm (s.candidates q t).enum ∧
       dl.Pairwise (fun a b => b.2.1 < a.2.1 ∨ (a.2.1 = b.2.1 ∧ a.1 ≤ b.1)) ∧
       s.search q k t = (dl.map (fun e => e.2)).take k.toNat) ∧
    (∀ p ∈ s.search q k t, (t : ℝ) ≤ p.1) := by
  refine ⟨fun x => mem_candidates_iff s q t x, ?_, ?_⟩
  · obtain ⟨dl, hperm, hpw, heq⟩ :=
      mergeSort_descKey_spec (Prod.fst : ℝ × Doc → ℝ) (s.candidates q t)
    refine ⟨dl, hperm, hpw, ?_⟩
    rw [search_eq_slice s q t k hq, pySlice_nonneg _ _ (le_of_lt hk)]
    have hcomp : descByFst (δ := Doc) =
        (fun a b : ℝ × Doc => decide (b.1 ≤ a.1)) := rfl
    rw [hcomp, heq]
  · intro p hp
    exact ((mem_candidates_iff s q t p).mp (mem_search hp)).choose_spec.2.2.1

theorem vectorStore_search_spec_witness :
    normSq [(1 : ℚ)] ≠ 0 ∧ (0 : ℤ) < 1 ∧
    ((∀ x : ℝ × Doc, x ∈ vsOne.candidates [1] 0 ↔
       ∃ pr ∈ vsOne.vectors.zip vsOne.metadata,
         simVal? pr.1 [1] = some x.1 ∧ ((0 : ℚ) : ℝ) ≤ x.1 ∧ x.2 = pr.2) ∧
    (∃ dl : List (ℕ × (ℝ × Doc)),
       dl.Perm (vsOne.candidates [1] 0).enum ∧
       dl.Pairwise (fun a b => b.2.1 < a.2.1 ∨ (a.2.1 = b.2.1 ∧ a.1 ≤ b.1)) ∧
       vsOne.search [1] 1 0 = (dl.map (fun e => e.2)).take (1 : ℤ).toNat) ∧
    (∀ p ∈ vsOne.search [1] 1 0, ((0 : ℚ) : ℝ) ≤ p.1)) :=
  ⟨by simp [normSq, dot], by decide,
    vectorStore_search_spec vsOne [1] 0 1 (by simp [normSq, dot]) (by decide)⟩

/-! ## C7: zero-norm stored vectors are excluded, no NaN scores -/

/-- **C7**: on a store containing zero-norm vectors and a query of non-zero
norm, every result of `VectorStore.search` stems from a stored entry of
non-zero norm whose similarity is the well-defined real cosine similarity
(the NaN rows produced by the `0/0` division fail the threshold comparison
and are dropped); and `VectorIndex.search` of `embeddings.py` returns `[]`
outright when any stored vector has zero norm. -/
theorem search_zero_norm_excluded (s : VectorStore) (vi : VectorIndex)
    (q : List ℚ) (k k' : ℤ) (t : ℚ)
    (hz : ∃ v ∈ s.vectors, normSq v = 0) (hq : normSq q ≠ 0)
    (hz' : ∃ v ∈ vi.vectors, normSq v = 0) :
    (∀ p ∈ s.search q k t,
       ∃ pr ∈ s.vectors.zip s.metadata,
         normSq pr.1 ≠ 0 ∧ cosineSim pr.1 q = p.1 ∧ p.2 = pr.2) ∧
    vi.search q k' = [] := by
  constructor
  · intro p hp
    obtain ⟨pr, hpr, hsv, -, hx⟩ :=
      (mem_candidates_iff s q t p).mp (mem_search hp)
    unfold simVal? at hsv
    by_cases h0 : normSq pr.1 = 0
    · rw [if_pos h0] at hsv
      exact Option.noConfusion hsv
    · rw [if_neg h0] at hsv
      exact ⟨pr, hpr, h0, Option.some.inj hsv, hx⟩
  · obtain ⟨v, hv, hv0⟩ := hz'
    unfold VectorIndex.search
    have hne : vi.vectors ≠ [] := by
      intro h; rw [h] at hv; cases hv
    have hany : vi.vectors.any (fun v => normSq v == 0) = true := by
      rw [List.any_eq_true]
      exact ⟨v, hv, by simp [hv0]⟩
    simp [hne, hany]

/-- A store with one zero-norm and one non-zero vector (dimension 1). -/
def vsZero : VectorStore :=
  { dimension := 1, vectors := [[0], [1]], metadata := [[], []],
    id_to_index := [("doc_0", 0), ("doc_1", 1)], index_built := false }

/-- A `VectorIndex` holding a single zero vector. -/
def viZero : VectorIndex :=
  { dimension := 1, vectors := [[0]], metadata := [[]], index_built := false }

theorem search_zero_norm_excluded_witness :
    (∃ v ∈ vsZero.vectors, normSq v = 0) ∧ normSq [(1 : ℚ)] ≠ 0 ∧
    (∃ v ∈ viZero.vectors, normSq v = 0) ∧
    ((∀ p ∈ vsZero.search [1] 5 0,
       ∃ pr ∈ vsZero.vectors.zip vsZero.metadata,
         normSq pr.1 ≠ 0 ∧ cosineSim pr.1 [1] = p.1 ∧ p.2 = pr.2) ∧
     viZero.search [1] 5 = []) :=
  ⟨⟨[0], by simp [vsZero], by simp [normSq, dot]⟩, by simp [normSq, dot],
    ⟨[0], by simp [viZero], by simp [normSq, dot]⟩,
    search_zero_norm_excluded vsZero viZero [1] 5 5 0
      ⟨[0], by simp [vsZero], by simp [normSq, dot]⟩ (by simp [normSq, dot])
      ⟨[0], by simp [viZero], by simp [normSq, dot]⟩⟩

/-! ## C6: top_k bounds and Python's negative-slice behaviour -/

theorem rnorm_one_vec : rnorm [1] = 1 := by
  unfold rnorm
  norm_num [normSq, dot]

theorem rnorm_two_vec : rnorm [2] = 2 := by
  unfold rnorm
  have h4 : ((normSq [2] : ℚ) : ℝ) = 4 := by norm_num [normSq, dot]
  rw [h4, show (4 : ℝ) = 2 ^ 2 by norm_num, Real.sqrt_sq (by norm_num : (0:ℝ) ≤ 2)]

/-- A store with two one-dimensional vectors, both at cosine similarity `1`
to the query `[1]`. -/
def vsB : VectorStore :=
  { dimension := 1, vectors := [[1], [2]],
    metadata := [[], [("k", Val.str "x")]], id_to_index := [], index_built := false }

theorem candidates_vsB :
    vsB.candidates [1] 0 = [((1 : ℝ), []), ((1 : ℝ), [("k", Val.str "x")])] := by
  unfold VectorStore.candidates vsB
  simp only [List.zip_cons_cons, List.zip_nil_right, List.filterMap]
  norm_num [simVal?, cosineSim, rnorm_one_vec, rnorm_two_vec, normSq, dot]

/-- **C6 counterexample**: the claim predicts `search` returns `[]` for every
`top_k ≤ 0`, but with `top_k = -1` Python's slice `results[:-1]` keeps all
but the last qualifying result: on a store with two qualifying entries the
result is non-empty. -/
theorem search_negative_topk_counterexample :
    (-1 : ℤ) ≤ 0 ∧ vsB.search [1] (-1) 0 ≠ [] := by
  refine ⟨by decide, ?_⟩
  have hq : normSq [(1 : ℚ)] ≠ 0 := by norm_num [normSq, dot]
  have hlen : (vsB.search [1] (-1) 0).length = 1 := by
    rw [search_eq_slice vsB [1] 0 (-1) hq, pySlice_neg _ _ (by decide)]
    rw [List.length_take, List.length_mergeSort, candidates_vsB]
    rfl
  intro hc
  rw [hc] at hlen
  cases hlen

/-- **C6 amended**: for `top_k ≥ 0` the result length is at most `top_k`, and
`top_k = 0` yields `[]`; but a negative `top_k` follows Python slice
semantics and returns all but the last `|top_k|` qualifying entries rather
than the empty list. -/
theorem search_length_bound (s : VectorStore) (q : List ℚ) (t : ℚ) (k : ℤ) :
    (0 ≤ k → (s.search q k t).length ≤ k.toNat) ∧
    (k = 0 → s.search q k t = []) ∧
    (normSq q ≠ 0 → k < 0 →
      (s.search q k t).length = (s.candidates q t).length - k.natAbs) := by
  refine ⟨?_, ?_, ?_⟩
  · intro hk
    unfold VectorStore.search
    split
    · simp
    · split
      · simp
      · rw [pySlice_nonneg _ _ hk]
        exact (List.length_take _ _).le.trans (Nat.min_le_left _ _)
  · intro hk
    subst hk
    unfold VectorStore.search
    split
    · rfl
    · split
      · rfl
      · rw [pySlice_nonneg _ _ le_rfl]
        simp
  · intro hq hk
    rw [search_eq_slice s q t k hq, pySlice_neg _ _ hk]
    rw [List.length_take, List.length_mergeSort]
    exact Nat.min_eq_left (Nat.sub_le _ _)

theorem search_length_bound_witness :
    (vsB.search [1] 5 0).length ≤ (5 : ℤ).toNat ∧
    (vsB.search [1] (-2) 0).length = (vsB.candidates [1] 0).length - (-2 : ℤ).natAbs :=
  ⟨(search_length_bound vsB [1] 0 5).1 (by decide),
   (search_length_bound vsB [1] 0 (-2)).2.2 (by norm_num [normSq, dot]) (by decide)⟩

/-! ## C2: the index_* methods zip-truncate instead of validating lengths -/

/-- The evolution of an `id_to_index` dict across a run of `add` calls that
register keys `keys` at consecutive positions starting at `pos`. -/
def buildIdx : List (String × ℕ) → ℕ → List String → List (String × ℕ)
  | acc, _, [] => acc
  | acc, pos, k :: rest => buildIdx (assocSet acc k pos) (pos + 1) rest

theorem add_ok (s : VectorStore) (v : List ℚ) (m : Doc) (oid : Option String)
    (h : v.length = s.dimension) :
    s.add v m oid = Except.ok
      { dimension := s.dimension, vectors := s.vectors ++ [v],
        metadata := s.metadata ++ [m],
        id_to_index := assocSet s.id_to_index
          (oid.getD ("doc_" ++ toString s.vectors.length)) s.vectors.length,
        index_built := false } := by
  unfold VectorStore.add
  rw [if_neg (by simp [h])]

theorem indexNewsGo_spec (pairs : List (ℕ × (Doc × List ℚ))) :
    ∀ e : SearchEngine, (∀ p ∈ pairs, p.2.2.length = e.news_store.dimension) →
    ∃ e', e.indexNewsGo pairs = Except.ok e' ∧
      e'.news_store.dimension = e.news_store.dimension ∧
      e'.news_store.vectors = e.news_store.vectors ++ pairs.map (fun p => p.2.2) ∧
      e'.news_store.metadata = e.news_store.metadata ++
        pairs.map (fun p => tagDoc p.2.1 ("news_" ++ toString p.1) "news") ∧
      e'.news_store.id_to_index =
        buildIdx e.news_store.id_to_index e.news_store.vectors.length
          (pairs.map (fun p => "news_" ++ toString p.1)) ∧
      e'.stocks_store = e.stocks_store ∧
      e'.portfolio_store = e.portfolio_store := by
  induction pairs with
  | nil =>
    intro e _
    exact ⟨e, rfl, rfl, by simp, by simp, rfl, rfl, rfl⟩
  | cons p rest ih =>
    intro e h
    obtain ⟨i, d, v⟩ := p
    have hv : v.length = e.news_store.dimension := h _ (List.mem_cons_self _ _)
    simp only [SearchEngine.indexNewsGo]
    rw [add_ok _ _ _ _ hv]
    obtain ⟨e', he', hdim, hvec, hmeta, hidx, hs, hp⟩ :=
      ih { e with
            news_store :=
              { dimension := e.news_store.dimension,
                vectors := e.news_store.vectors ++ [v],
                metadata := e.news_store.metadata ++
                  [tagDoc d ("news_" ++ toString i) "news"],
                id_to_index := assocSet e.news_store.id_to_index
                  ("news_" ++ toString i) e.news_store.vectors.length,
                index_built := false },
            keyword_index := indexKeywords e.keyword_index
              (pyTokens (pyStrGet (tagDoc d ("news_" ++ toString i) "news") "title" ++ " " ++
                pyStrGet (tagDoc d ("news_" ++ toString i) "news") "summary"))
              ("news_" ++ toString i) }
        (by intro q hq; exact h q (List.mem_cons_of_mem _ hq))
    refine ⟨e', he', ?_, ?_, ?_, ?_, hs, hp⟩
    · exact hdim
    · rw [hvec]; simp
    · rw [hmeta]; simp
    · rw [hidx]
      simp only [List.map_cons, buildIdx, List.length_append, List.length_cons,
        List.length_nil]

theorem indexStocksGo_spec (pairs : List (ℕ × (Doc × List ℚ))) :
    ∀ e : SearchEngine, (∀ p ∈ pairs, p.2.2.length = e.stocks_store.dimension) →
    ∃ e', e.indexStocksGo pairs = Except.ok e' ∧
      e'.stocks_store.dimension = e.stocks_store.dimension ∧
      e'.stocks_store.vectors = e.stocks_store.vectors ++ pairs.map (fun p => p.2.2) ∧
      e'.stocks_store.metadata = e.stocks_store.metadata ++
        pairs.map (fun p => tagDoc p.2.1 ("stock_" ++ toString p.1) "stock") ∧
      e'.stocks_store.id_to_index =
        buildIdx e.stocks_store.id_to_index e.stocks_store.vectors.length
          (pairs.map (fun p => "stock_" ++ toString p.1)) ∧
      e'.news_store = e.news_store ∧
      e'.portfolio_store = e.portfolio_store := by
  induction pairs with
  | nil =>
    intro e _
    exact ⟨e, rfl, rfl, by simp, by simp, rfl, rfl, rfl⟩
  | cons p rest ih =>
    intro e h
    obtain ⟨i, d, v⟩ := p
    have hv : v.length = e.stocks_store.dimension := h _ (List.mem_cons_self _ _)
    simp only [SearchEngine.indexStocksGo]
    rw [add_ok _ _ _ _ hv]
    obtain ⟨e', he', hdim, hvec, hmeta, hidx, hs, hp⟩ :=
      ih { e with
            stocks_store :=
              { dimension := e.stocks_store.dimension,
                vectors := e.stocks_store.vectors ++ [v],
                metadata := e.stocks_store.metadata ++
                  [tagDoc d ("stock_" ++ toString i) "stock"],
                id_to_index := assocSet e.stocks_store.id_to_index
                  ("stock_" ++ toString i) e.stocks_store.vectors.length,
                index_built := false },
            keyword_index := indexKeywords e.keyword_index
              (pyTokens (pyStrGet (tagDoc d ("stock_" ++ toString i) "stock") "name" ++ " " ++
                pyStrGet (tagDoc d ("stock_" ++ toString i) "stock") "sector"))
              ("stock_" ++ toString i) }
        (by intro q hq; exact h q (List.mem_cons_of_mem _ hq))
    refine ⟨e', he', ?_, ?_, ?_, ?_, hs, hp⟩
    · exact hdim
    · rw [hvec]; simp
    · rw [hmeta]; simp
    · rw [hidx]
      simp only [List.map_cons, buildIdx, List.length_append, List.length_cons,
        List.length_nil]

theorem indexPortfolioGo_spec (pairs : List (ℕ × (Doc × List ℚ))) :
    ∀ e : SearchEngine, (∀ p ∈ pairs, p.2.2.length = e.portfolio_store.dimension) →
    ∃ e', e.indexPortfolioGo pairs = Except.ok e' ∧
      e'.portfolio_store.dimension = e.portfolio_store.dimension ∧
      e'.portfolio_store.vectors =
        e.portfolio_store.vectors ++ pairs.map (fun p => p.2.2) ∧
      e'.portfolio_store.metadata = e.portfolio_store.metadata ++
        pairs.map (fun p => tagDoc p.2.1 ("portfolio_" ++ toString p.1) "portfolio") ∧
      e'.portfolio_store.id_to_index =
        buildIdx e.portfolio_store.id_to_index e.portfolio_store.vectors.length
          (pairs.map (fun p => "portfolio_" ++ toString p.1)) ∧
      e'.news_store = e.news_store ∧
      e'.stocks_store = e.stocks_store := by
  induction pairs with
  | nil =>
    intro e _
    exact ⟨e, rfl, rfl, by simp, by simp, rfl, rfl, rfl⟩
  | cons p rest ih =>
    intro e h
    obtain ⟨i, d, v⟩ := p
    have hv : v.length = e.portfolio_store.dimension := h _ (List.mem_cons_self _ _)
    simp only [SearchEngine.indexPortfolioGo]
    rw [add_ok _ _ _ _ hv]
    obtain ⟨e', he', hdim, hvec, hmeta, hidx, hs, hp⟩ :=
      ih { e with
            portfolio_store :=
              { dimension := e.portfolio_store.dimension,
                vectors := e.portfolio_store.vectors ++ [v],
                metadata := e.portfolio_store.metadata ++
                  [tagDoc d ("portfolio_" ++ toString i) "portfolio"],
                id_to_index := assocSet e.portfolio_store.id_to_index
                  ("portfolio_" ++ toString i) e.portfolio_store.vectors.length,
                index_built := false } }
        (by intro q hq; exact h q (List.mem_cons_of_mem _ hq))
    refine ⟨e', he', ?_, ?_, ?_, ?_, hs, hp⟩
    · exact hdim
    · rw [hvec]; simp
    · rw [hmeta]; simp
    · rw [hidx]
      simp only [List.map_cons, buildIdx, List.length_append, List.length_cons,
        List.length_nil]

/-- Membership transfer from an `enum`-decorated zip back to the zip. -/
theorem mem_enum_snd {α : Type} {p : ℕ × α} {l : List α} (h : p ∈ l.enum) :
    p.2 ∈ l := by
  have : p.2 ∈ l.enum.map Prod.snd := List.mem_map_of_mem Prod.snd h
  rwa [List.enum_map_snd] at this

/-- **C2 amended**: the `index_*` methods perform no length validation at
all: on lists of different lengths they succeed and silently index exactly
the `min(len(docs), len(embeddings))` zip-paired items (assuming the paired
embeddings match the store dimension, the only check the code does make). -/
theorem index_no_length_check (e : SearchEngine) (docs : List Doc)
    (embs : List (List ℚ)) :
    ((∀ p ∈ docs.zip embs, p.2.length = e.news_store.dimension) →
      ∃ e', e.index_news docs embs = Except.ok e' ∧
        e'.news_store.vectors.length =
          e.news_store.vectors.length + min docs.length embs.length) ∧
    ((∀ p ∈ docs.zip embs, p.2.length = e.stocks_store.dimension) →
      ∃ e', e.index_stocks docs embs = Except.ok e' ∧
        e'.stocks_store.vectors.length =
          e.stocks_store.vectors.length + min docs.length embs.length) ∧
    ((∀ p ∈ docs.zip embs, p.2.length = e.portfolio_store.dimension) →
      ∃ e', e.index_portfolio docs embs = Except.ok e' ∧
        e'.portfolio_store.vectors.length =
          e.portfolio_store.vectors.length + min docs.length embs.length) := by
  refine ⟨?_, ?_, ?_⟩
  · intro h
    obtain ⟨e', he', -, hvec, -, -, -, -⟩ :=
      indexNewsGo_spec ((docs.zip embs).enum) e
        (fun p hp => h p.2 (mem_enum_snd hp))
    refine ⟨e', he', ?_⟩
    rw [hvec]
    simp [List.length_zip]
  · intro h
    obtain ⟨e', he', -, hvec, -, -, -, -⟩ :=
      indexStocksGo_spec ((docs.zip embs).enum) e
        (fun p hp => h p.2 (mem_enum_snd hp))
    refine ⟨e', he', ?_⟩
    rw [hvec]
    simp [List.length_zip]
  · intro h
    obtain ⟨e', he', -, hvec, -, -, -, -⟩ :=
      indexPortfolioGo_spec ((docs.zip embs).enum) e
        (fun p hp => h p.2 (mem_enum_snd hp))
    refine ⟨e', he', ?_⟩
    rw [hvec]
    simp [List.length_zip]

/-- A fixed stand-in for the process string hash. -/
def hash0 : String → ℕ := fun _ => 0

/-- A fresh dimension-1 engine. -/
def engN : SearchEngine := SearchEngine.mk0 1 hash0

/-- A minimal news document. -/
def docX : Doc := [("title", Val.str "x")]

/-- **C2 counterexample**: calling `index_news` with two documents but a
single embedding does not raise any length-mismatch error — it succeeds and
silently indexes only the first (zip-truncated) document. -/
theorem index_length_mismatch_counterexample :
    ([docX, docX].length ≠ ([[(1 : ℚ)]] : List (List ℚ)).length) ∧
    ∃ e', engN.index_news [docX, docX] [[1]] = Except.ok e' ∧
      e'.news_store.vectors.length = 1 :=
  ⟨by decide, ⟨_, rfl, rfl⟩⟩

theorem index_no_length_check_witness :
    ∃ e', engN.index_news [docX, docX] [[1]] = Except.ok e' ∧
      e'.news_store.vectors.length =
        engN.news_store.vectors.length + min [docX, docX].length
          ([[(1 : ℚ)]] : List (List ℚ)).length :=
  (index_no_length_check engN [docX, docX] [[1]]).1
    (by intro p hp; simp [engN, SearchEngine.mk0, VectorStore.mk0]
        simp [docX] at hp
        simp [hp])

/-! ## Injectivity of the decimal rendering of ℕ (for doc-id reasoning) -/

/-- Decimal digit string of a natural number, structurally recursive
counterpart of `Nat.toDigitsCore`. -/
def decDigits (n : ℕ) : List Char :=
  if n < 10 then [Nat.digitChar n]
  else decDigits (n / 10) ++ [Nat.digitChar (n % 10)]
termination_by n
decreasing_by exact Nat.div_lt_self (by omega) (by norm_num)

theorem decDigits_lt (n : ℕ) (h : n < 10) : decDigits n = [Nat.digitChar n] := by
  rw [decDigits, if_pos h]

theorem decDigits_ge (n : ℕ) (h : ¬ n < 10) :
    decDigits n = decDigits (n / 10) ++ [Nat.digitChar (n % 10)] := by
  rw [decDigits, if_neg h]

theorem toDigitsCore_eq_decDigits :
    ∀ (f n : ℕ) (ds : List Char), n < f →
      Nat.toDigitsCore 10 f n ds = decDigits n ++ ds := by
  intro f
  induction f with
  | zero => intro n ds h; omega
  | succ f ih =>
    intro n ds h
    by_cases h10 : n < 10
    · have hdiv : n / 10 = 0 := Nat.div_eq_of_lt h10
      rw [Nat.toDigitsCore, decDigits_lt n h10]
      simp [hdiv, Nat.mod_eq_of_lt h10]
    · have hdiv : n / 10 ≠ 0 := by
        intro hc
        exact h10 (by omega)
      have hlt : n / 10 < f := by
        have : n / 10 < n := Nat.div_lt_self (by omega) (by norm_num)
        omega
      rw [Nat.toDigitsCore]
      simp only [hdiv, if_false]
      rw [ih _ _ hlt, decDigits_ge n h10, List.append_assoc]
      rfl

theorem toString_nat_eq_decDigits (n : ℕ) :
    toString n = (decDigits n).asString := by
  show Nat.repr n = _
  unfold Nat.repr Nat.toDigits
  rw [toDigitsCore_eq_decDigits _ _ _ (Nat.lt_succ_self n), List.append_nil]

theorem digitChar_inj_lt :
    ∀ a : ℕ, a < 10 → ∀ b : ℕ, b < 10 → Nat.digitChar a = Nat.digitChar b →
      a = b := by
  decide

theorem decDigits_ne_nil (n : ℕ) : decDigits n ≠ [] := by
  rw [decDigits]
  split
  · exact List.cons_ne_nil _ _
  · exact fun h => absurd h (List.append_ne_nil_of_right_ne_nil _ (List.cons_ne_nil _ _))

theorem decDigits_inj : ∀ m n : ℕ, decDigits m = decDigits n → m = n := by
  intro m
  induction m using Nat.strong_induction_on with
  | _ m ih =>
    intro n h
    by_cases hm : m < 10 <;> by_cases hn : n < 10
    · rw [decDigits_lt m hm, decDigits_lt n hn] at h
      exact digitChar_inj_lt m hm n hn (List.head_eq_of_cons_eq h)
    · rw [decDigits_lt m hm, decDigits_ge n hn] at h
      have hlen := congrArg List.length h
      simp only [List.length_append, List.length_cons, List.length_nil] at hlen
      have hpos : 0 < (decDigits (n / 10)).length :=
        List.length_pos.mpr (decDigits_ne_nil _)
      omega
    · rw [decDigits_ge m hm, decDigits_lt n hn] at h
      have hlen := congrArg List.length h
      simp only [List.length_append, List.length_cons, List.length_nil] at hlen
      have hpos : 0 < (decDigits (m / 10)).length :=
        List.length_pos.mpr (decDigits_ne_nil _)
      omega
    · rw [decDigits_ge m hm, decDigits_ge n hn] at h
      obtain ⟨h1, h2⟩ := List.append_inj' h rfl
      have hdiv : m / 10 = n / 10 :=
        ih (m / 10) (Nat.div_lt_self (by omega) (by norm_num)) _ h1
      have hmod : m % 10 = n % 10 :=
        digitChar_inj_lt _ (Nat.mod_lt _ (by norm_num)) _
          (Nat.mod_lt _ (by norm_num)) (List.head_eq_of_cons_eq h2)
      omega

theorem natToString_inj {m n : ℕ} (h : toString m = toString n) : m = n := by
  rw [toString_nat_eq_decDigits, toString_nat_eq_decDigits] at h
  exact decDigits_inj m n (congrArg String.data h)

theorem string_append_left_cancel {s a b : String} (h : s ++ a = s ++ b) :
    a = b := by
  have hd := congrArg String.data h
  rw [String.data_append, String.data_append] at hd
  cases a
  cases b
  exact congrArg String.mk (List.append_cancel_left hd)

theorem prefixed_nat_inj (pre : String) :
    Function.Injective (fun i : ℕ => pre ++ toString i) := by
  intro a b h
  exact natToString_inj (string_append_left_cancel h)

/-! ## C9: doc-id assignment and the id_to_index map -/

theorem assocGet?_buildIdx_not_mem (keys : List String) :
    ∀ (acc : List (String × ℕ)) (pos : ℕ) (k : String), k ∉ keys →
      assocGet? (buildIdx acc pos keys) k = assocGet? acc k := by
  induction keys with
  | nil => intro acc pos k _; rfl
  | cons k0 rest ih =>
    intro acc pos k hk
    rw [buildIdx, ih _ _ _ (fun h => hk (List.mem_cons_of_mem _ h)),
      assocGet?_assocSet, if_neg (fun h => hk (List.mem_cons.mpr (Or.inl h)))]

theorem assocGet?_buildIdx_get (keys : List String) :
    ∀ (_ : keys.Nodup) (acc : List (String × ℕ)) (pos : ℕ) (j : ℕ)
      (hj : j < keys.length),
      assocGet? (buildIdx acc pos keys) (keys.get ⟨j, hj⟩) = some (pos + j) := by
  induction keys with
  | nil => intro _ _ _ j hj; exact absurd hj (by simp)
  | cons k0 rest ih =>
    intro hnd acc pos j hj
    match j with
    | 0 =>
      have hk0 : k0 ∉ rest := (List.nodup_cons.mp hnd).1
      show assocGet? (buildIdx (assocSet acc k0 pos) (pos + 1) rest) k0 = some (pos + 0)
      rw [assocGet?_buildIdx_not_mem rest _ _ _ hk0, assocGet?_assocSet, if_pos rfl,
        Nat.add_zero]
    | j + 1 =>
      have hj' : j < rest.length := by simpa using hj
      have := ih (List.nodup_cons.mp hnd).2 (assocSet acc k0 pos) (pos + 1) j hj'
      show assocGet? (buildIdx (assocSet acc k0 pos) (pos + 1) rest)
        (rest.get ⟨j, hj'⟩) = some (pos + (j + 1))
      rw [this]
      congr 1
      omega

/-- The doc-id keys registered by one `index_news`-style call, as a map over
`range`. -/
theorem keys_enum_eq_range {α : Type} (pre : String) (l : List α) :
    l.enum.map (fun p => pre ++ toString p.1) =
      (List.range l.length).map (fun i => pre ++ toString i) := by
  have : (fun p : ℕ × α => pre ++ toString p.1) =
      ((fun i => pre ++ toString i) ∘ Prod.fst) := rfl
  rw [this, ← List.map_map, List.enum_map_fst]

theorem keys_range_nodup (pre : String) (n : ℕ) :
    ((List.range n).map (fun i => pre ++ toString i)).Nodup :=
  (List.nodup_range n).map (prefixed_nat_inj pre)

theorem tagDoc_doc_id (d : Doc) (i t : String) :
    assocGet? (tagDoc d i t) "doc_id" = some (Val.str i) := by
  rw [tagDoc_get, if_neg (by decide), if_pos rfl]

theorem index_news_fresh_ids (e : SearchEngine) (docs : List Doc)
    (embs : List (List ℚ))
    (hv : e.news_store.vectors = []) (hm : e.news_store.metadata = [])
    (hi : e.news_store.id_to_index = [])
    (hdim : ∀ p ∈ docs.zip embs, p.2.length = e.news_store.dimension) :
    ∃ e', e.index_news docs embs = Except.ok e' ∧
      (e'.news_store.metadata.map (fun m => assocGet? m "doc_id")).Nodup ∧
      ∀ j (d : Doc) (v : List ℚ), (docs.zip embs)[j]? = some (d, v) →
        (e'.news_store.metadata[j]?).map (fun m => assocGet? m "doc_id") =
          some (some (Val.str ("news_" ++ toString j))) ∧
        assocGet? e'.news_store.id_to_index ("news_" ++ toString j) = some j := by
  obtain ⟨e', he', -, -, hmeta, hidx, -, -⟩ :=
    indexNewsGo_spec ((docs.zip embs).enum) e
      (fun p hp => hdim p.2 (mem_enum_snd hp))
  rw [hm, List.nil_append] at hmeta
  rw [hi, hv] at hidx
  simp only [List.length_nil] at hidx
  refine ⟨e', he', ?_, ?_⟩
  · rw [hmeta, List.map_map]
    have hfun : ((fun m => assocGet? m "doc_id") ∘
        (fun p : ℕ × (Doc × List ℚ) =>
          tagDoc p.2.1 ("news_" ++ toString p.1) "news")) =
        (fun p : ℕ × (Doc × List ℚ) =>
          some (Val.str ("news_" ++ toString p.1))) := by
      funext p
      exact tagDoc_doc_id _ _ _
    rw [hfun,
      show (fun p : ℕ × (Doc × List ℚ) =>
          some (Val.str ("news_" ++ toString p.1))) =
        ((fun i : ℕ => some (Val.str ("news_" ++ toString i))) ∘ Prod.fst) from rfl,
      ← List.map_map, List.enum_map_fst]
    refine (List.nodup_range _).map ?_
    intro a b hab
    exact prefixed_nat_inj "news_" (Val.str.inj (Option.some.inj hab))
  · intro j d v hj
    have hjlen : j < (docs.zip embs).length := by
      by_contra hc
      rw [List.getElem?_eq_none (le_of_not_lt hc)] at hj
      cases hj
    constructor
    · rw [hmeta, List.getElem?_map, List.getElem?_enum, hj]
      simp [tagDoc_doc_id]
    · rw [hidx]
      have hkl : j <
          ((docs.zip embs).enum.map (fun p => "news_" ++ toString p.1)).length := by
        simpa using hjlen
      have hnd :
          ((docs.zip embs).enum.map (fun p => "news_" ++ toString p.1)).Nodup := by
        rw [keys_enum_eq_range]
        exact keys_range_nodup _ _
      have hget :
          ((docs.zip embs).enum.map (fun p => "news_" ++ toString p.1)).get ⟨j, hkl⟩ =
            "news_" ++ toString j := by
        simp [List.getElem_map, List.getElem_enum]
      have hres := assocGet?_buildIdx_get _ hnd [] 0 j hkl
      rw [hget] at hres
      simpa using hres

theorem index_stocks_fresh_ids (e : SearchEngine) (docs : List Doc)
    (embs : List (List ℚ))
    (hv : e.stocks_store.vectors = []) (hm : e.stocks_store.metadata = [])
    (hi : e.stocks_store.id_to_index = [])
    (hdim : ∀ p ∈ docs.zip embs, p.2.length = e.stocks_store.dimension) :
    ∃ e', e.index_stocks docs embs = Except.ok e' ∧
      (e'.stocks_store.metadata.map (fun m => assocGet? m "doc_id")).Nodup ∧
      ∀ j (d : Doc) (v : List ℚ), (docs.zip embs)[j]? = some (d, v) →
        (e'.stocks_store.metadata[j]?).map (fun m => assocGet? m "doc_id") =
          some (some (Val.str ("stock_" ++ toString j))) ∧
        assocGet? e'.stocks_store.id_to_index ("stock_" ++ toString j) = some j := by
  obtain ⟨e', he', -, -, hmeta, hidx, -, -⟩ :=
    indexStocksGo_spec ((docs.zip embs).enum) e
      (fun p hp => hdim p.2 (mem_enum_snd hp))
  rw [hm, List.nil_append] at hmeta
  rw [hi, hv] at hidx
  simp only [List.length_nil] at hidx
  refine ⟨e', he', ?_, ?_⟩
  · rw [hmeta, List.map_map]
    have hfun : ((fun m => assocGet? m "doc_id") ∘
        (fun p : ℕ × (Doc × List ℚ) =>
          tagDoc p.2.1 ("stock_" ++ toString p.1) "stock")) =
        (fun p : ℕ × (Doc × List ℚ) =>
          some (Val.str ("stock_" ++ toString p.1))) := by
      funext p
      exact tagDoc_doc_id _ _ _
    rw [hfun,
      show (fun p : ℕ × (Doc × List ℚ) =>
          some (Val.str ("stock_" ++ toString p.1))) =
        ((fun i : ℕ => some (Val.str ("stock_" ++ toString i))) ∘ Prod.fst) from rfl,
      ← List.map_map, List.enum_map_fst]
    refine (List.nodup_range _).map ?_
    intro a b hab
    exact prefixed_nat_inj "stock_" (Val.str.inj (Option.some.inj hab))
  · intro j d v hj
    have hjlen : j < (docs.zip embs).length := by
      by_contra hc
      rw [List.getElem?_eq_none (le_of_not_lt hc)] at hj
      cases hj
    constructor
    · rw [hmeta, List.getElem?_map, List.getElem?_enum, hj]
      simp [tagDoc_doc_id]
    · rw [hidx]
      have hkl : j <
          ((docs.zip embs).enum.map (fun p => "stock_" ++ toString p.1)).length := by
        simpa using hjlen
      have hnd :
          ((docs.zip embs).enum.map (fun p => "stock_" ++ toString p.1)).Nodup := by
        rw [keys_enum_eq_range]
        exact keys_range_nodup _ _
      have hget :
          ((docs.zip embs).enum.map (fun p => "stock_" ++ toString p.1)).get ⟨j, hkl⟩ =
            "stock_" ++ toString j := by
        simp [List.getElem_map, List.getElem_enum]
      have hres := assocGet?_buildIdx_get _ hnd [] 0 j hkl
      rw [hget] at hres
      simpa using hres

theorem index_portfolio_fresh_ids (e : SearchEngine) (docs : List Doc)
    (embs : List (List ℚ))
    (hv : e.portfolio_store.vectors = []) (hm : e.portfolio_store.metadata = [])
    (hi : e.portfolio_store.id_to_index = [])
    (hdim : ∀ p ∈ docs.zip embs, p.2.length = e.portfolio_store.dimension) :
    ∃ e', e.index_portfolio docs embs = Except.ok e' ∧
      (e'.portfolio_store.metadata.map (fun m => assocGet? m "doc_id")).Nodup ∧
      ∀ j (d : Doc) (v : List ℚ), (docs.zip embs)[j]? = some (d, v) →
        (e'.portfolio_store.metadata[j]?).map (fun m => assocGet? m "doc_id") =
          some (some (Val.str ("portfolio_" ++ toString j))) ∧
        assocGet? e'.portfolio_store.id_to_index ("portfolio_" ++ toString j) =
          some j := by
  obtain ⟨e', he', -, -, hmeta, hidx, -, -⟩ :=
    indexPortfolioGo_spec ((docs.zip embs).enum) e
      (fun p hp => hdim p.2 (mem_enum_snd hp))
  rw [hm, List.nil_append] at hmeta
  rw [hi, hv] at hidx
  simp only [List.length_nil] at hidx
  refine ⟨e', he', ?_, ?_⟩
  · rw [hmeta, List.map_map]
    have hfun : ((fun m => assocGet? m "doc_id") ∘
        (fun p : ℕ × (Doc × List ℚ) =>
          tagDoc p.2.1 ("portfolio_" ++ toString p.1) "portfolio")) =
        (fun p : ℕ × (Doc × List ℚ) =>
          some (Val.str ("portfolio_" ++ toString p.1))) := by
      funext p
      exact tagDoc_doc_id _ _ _
    rw [hfun,
      show (fun p : ℕ × (Doc × List ℚ) =>
          some (Val.str ("portfolio_" ++ toString p.1))) =
        ((fun i : ℕ =>
          some (Val.str ("portfolio_" ++ toString i))) ∘ Prod.fst) from rfl,
      ← List.map_map, List.enum_map_fst]
    refine (List.nodup_range _).map ?_
    intro a b hab
    exact prefixed_nat_inj "portfolio_" (Val.str.inj (Option.some.inj hab))
  · intro j d v hj
    have hjlen : j < (docs.zip embs).length := by
      by_contra hc
      rw [List.getElem?_eq_none (le_of_not_lt hc)] at hj
      cases hj
    constructor
    · rw [hmeta, List.getElem?_map, List.getElem?_enum, hj]
      simp [tagDoc_doc_id]
    · rw [hidx]
      have hkl : j <
          ((docs.zip embs).enum.map
            (fun p => "portfolio_" ++ toString p.1)).length := by
        simpa using hjlen
      have hnd :
          ((docs.zip embs).enum.map
            (fun p => "portfolio_" ++ toString p.1)).Nodup := by
        rw [keys_enum_eq_range]
        exact keys_range_nodup _ _
      have hget :
          ((docs.zip embs).enum.map
            (fun p => "portfolio_" ++ toString p.1)).get ⟨j, hkl⟩ =
            "portfolio_" ++ toString j := by
        simp [List.getElem_map, List.getElem_enum]
      have hres := assocGet?_buildIdx_get _ hnd [] 0 j hkl
      rw [hget] at hres
      simpa using hres

/-- A second minimal news document. -/
def docY : Doc := [("title", Val.str "y")]

/-- **C9 counterexample**: two successive `index_news` calls restart the
sequential index at 0, so the second document receives the duplicate doc_id
`"news_0"`, and `id_to_index` maps `"news_0"` to position 1 — not to the
position of the document stored first. -/
theorem index_ids_counterexample :
    ∃ e2, ((engN.index_news [docX] [[1]]).bind
        (fun e1 => e1.index_news [docY] [[1]])) = Except.ok e2 ∧
      e2.news_store.metadata.map (fun m => assocGet? m "doc_id") =
        [some (Val.str "news_0"), some (Val.str "news_0")] ∧
      assocGet? e2.news_store.id_to_index "news_0" = some 1 ∧
      ¬ (e2.news_store.metadata.map (fun m => assocGet? m "doc_id")).Nodup :=
  ⟨_, rfl, rfl, rfl, by decide⟩

/-- **C9 amended**: a single `index_*` call on a previously-empty category
store assigns the distinct doc_ids `"{category}_0" … "{category}_{n-1}"` in
order, and `id_to_index` maps each to its array position; across repeated
calls the numbering restarts at 0 and collides (see the counterexample). -/
theorem index_ids_spec (e : SearchEngine) (docs : List Doc)
    (embs : List (List ℚ)) :
    (e.news_store.vectors = [] → e.news_store.metadata = [] →
     e.news_store.id_to_index = [] →
     (∀ p ∈ docs.zip embs, p.2.length = e.news_store.dimension) →
      ∃ e', e.index_news docs embs = Except.ok e' ∧
        (e'.news_store.metadata.map (fun m => assocGet? m "doc_id")).Nodup ∧
        ∀ j (d : Doc) (v : List ℚ), (docs.zip embs)[j]? = some (d, v) →
          (e'.news_store.metadata[j]?).map (fun m => assocGet? m "doc_id") =
            some (some (Val.str ("news_" ++ toString j))) ∧
          assocGet? e'.news_store.id_to_index ("news_" ++ toString j) = some j) ∧
    (e.stocks_store.vectors = [] → e.stocks_store.metadata = [] →
     e.stocks_store.id_to_index = [] →
     (∀ p ∈ docs.zip embs, p.2.length = e.stocks_store.dimension) →
      ∃ e', e.index_stocks docs embs = Except.ok e' ∧
        (e'.stocks_store.metadata.map (fun m => assocGet? m "doc_id")).Nodup ∧
        ∀ j (d : Doc) (v : List ℚ), (docs.zip embs)[j]? = some (d, v) →
          (e'.stocks_store.metadata[j]?).map (fun m => assocGet? m "doc_id") =
            some (some (Val.str ("stock_" ++ toString j))) ∧
          assocGet? e'.stocks_store.id_to_index ("stock_" ++ toString j) = some j) ∧
    (e.portfolio_store.vectors = [] → e.portfolio_store.metadata = [] →
     e.portfolio_store.id_to_index = [] →
     (∀ p ∈ docs.zip embs, p.2.length = e.portfolio_store.dimension) →
      ∃ e', e.index_portfolio docs embs = Except.ok e' ∧
        (e'.portfolio_store.metadata.map (fun m => assocGet? m "doc_id")).Nodup ∧
        ∀ j (d : Doc) (v : List ℚ), (docs.zip embs)[j]? = some (d, v) →
          (e'.portfolio_store.metadata[j]?).map (fun m => assocGet? m "doc_id") =
            some (some (Val.str ("portfolio_" ++ toString j))) ∧
          assocGet? e'.portfolio_store.id_to_index ("portfolio_" ++ toString j) =
            some j) :=
  ⟨fun hv hm hi hdim => index_news_fresh_ids e docs embs hv hm hi hdim,
   fun hv hm hi hdim => index_stocks_fresh_ids e docs embs hv hm hi hdim,
   fun hv hm hi hdim => index_portfolio_fresh_ids e docs embs hv hm hi hdim⟩

theorem index_ids_spec_witness :
    ∃ e', engN.index_news [docX] [[1]] = Except.ok e' ∧
      (e'.news_store.metadata.map (fun m => assocGet? m "doc_id")).Nodup ∧
      ∀ j (d : Doc) (v : List ℚ), ([docX].zip [[(1 : ℚ)]])[j]? = some (d, v) →
        (e'.news_store.metadata[j]?).map (fun m => assocGet? m "doc_id") =
          some (some (Val.str ("news_" ++ toString j))) ∧
        assocGet? e'.news_store.id_to_index ("news_" ++ toString j) = some j :=
  (index_ids_spec engN [docX] [[1]]).1 rfl rfl rfl
    (by intro p hp; simp [docX] at hp; simp [hp, engN, SearchEngine.mk0, VectorStore.mk0])

/-! ## C10: stored metadata is the input record plus exactly doc_id/doc_type -/

/-- **C10**: for every successful `index_news`/`index_stocks`/
`index_portfolio` call, the record stored for the `j`-th zip-paired input
document is the caller's document extended with exactly the two
engine-assigned fields `doc_id` and `doc_type`; the lookup of every other key
is unchanged. -/
theorem index_metadata_frame (e : SearchEngine) (docs : List Doc)
    (embs : List (List ℚ)) :
    ((∀ p ∈ docs.zip embs, p.2.length = e.news_store.dimension) →
      ∃ e', e.index_news docs embs = Except.ok e' ∧
        ∀ j (d : Doc) (v : List ℚ), (docs.zip embs)[j]? = some (d, v) →
          ∃ m, e'.news_store.metadata[e.news_store.metadata.length + j]? = some m ∧
            ∀ k : String, assocGet? m k =
              if k = "doc_type" then some (Val.str "news")
              else if k = "doc_id" then some (Val.str ("news_" ++ toString j))
              else assocGet? d k) ∧
    ((∀ p ∈ docs.zip embs, p.2.length = e.stocks_store.dimension) →
      ∃ e', e.index_stocks docs embs = Except.ok e' ∧
        ∀ j (d : Doc) (v : List ℚ), (docs.zip embs)[j]? = some (d, v) →
          ∃ m, e'.stocks_store.metadata[e.stocks_store.metadata.length + j]? = some m ∧
            ∀ k : String, assocGet? m k =
              if k = "doc_type" then some (Val.str "stock")
              else if k = "doc_id" then some (Val.str ("stock_" ++ toString j))
              else assocGet? d k) ∧
    ((∀ p ∈ docs.zip embs, p.2.length = e.portfolio_store.dimension) →
      ∃ e', e.index_portfolio docs embs = Except.ok e' ∧
        ∀ j (d : Doc) (v : List ℚ), (docs.zip embs)[j]? = some (d, v) →
          ∃ m, e'.portfolio_store.metadata[e.portfolio_store.metadata.length + j]? =
              some m ∧
            ∀ k : String, assocGet? m k =
              if k = "doc_type" then some (Val.str "portfolio")
              else if k = "doc_id" then some (Val.str ("portfolio_" ++ toString j))
              else assocGet? d k) := by
  refine ⟨?_, ?_, ?_⟩
  · intro hdim
    obtain ⟨e', he', -, -, hmeta, -, -, -⟩ :=
      indexNewsGo_spec ((docs.zip embs).enum) e
        (fun p hp => hdim p.2 (mem_enum_snd hp))
    refine ⟨e', he', ?_⟩
    intro j d v hj
    rw [hmeta, List.getElem?_append_right (Nat.le_add_right _ _),
      Nat.add_sub_cancel_left, List.getElem?_map, List.getElem?_enum, hj]
    exact ⟨_, rfl, fun k => tagDoc_get d ("news_" ++ toString j) "news" k⟩
  · intro hdim
    obtain ⟨e', he', -, -, hmeta, -, -, -⟩ :=
      indexStocksGo_spec ((docs.zip embs).enum) e
        (fun p hp => hdim p.2 (mem_enum_snd hp))
    refine ⟨e', he', ?_⟩
    intro j d v hj
    rw [hmeta, List.getElem?_append_right (Nat.le_add_right _ _),
      Nat.add_sub_cancel_left, List.getElem?_map, List.getElem?_enum, hj]
    exact ⟨_, rfl, fun k => tagDoc_get d ("stock_" ++ toString j) "stock" k⟩
  · intro hdim
    obtain ⟨e', he', -, -, hmeta, -, -, -⟩ :=
      indexPortfolioGo_spec ((docs.zip embs).enum) e
        (fun p hp => hdim p.2 (mem_enum_snd hp))
    refine ⟨e', he', ?_⟩
    intro j d v hj
    rw [hmeta, List.getElem?_append_right (Nat.le_add_right _ _),
      Nat.add_sub_cancel_left, List.getElem?_map, List.getElem?_enum, hj]
    exact ⟨_, rfl, fun k => tagDoc_get d ("portfolio_" ++ toString j) "portfolio" k⟩

theorem index_metadata_frame_witness :
    ∃ e', engN.index_news [docX] [[1]] = Except.ok e' ∧
      ∀ j (d : Doc) (v : List ℚ), ([docX].zip [[(1 : ℚ)]])[j]? = some (d, v) →
        ∃ m, e'.news_store.metadata[engN.news_store.metadata.length + j]? = some m ∧
          ∀ k : String, assocGet? m k =
            if k = "doc_type" then some (Val.str "news")
            else if k = "doc_id" then some (Val.str ("news_" ++ toString j))
            else assocGet? d k :=
  (index_metadata_frame engN [docX] [[1]]).1
    (by intro p hp; simp [docX] at hp; simp [hp, engN, SearchEngine.mk0, VectorStore.mk0])

/-! ## C8: keyword search scoring -/

/-- The posting list consulted for a token: `keyword_index[word]` when the
word is indexed (the `if word in self.keyword_index` guard makes an absent
word contribute nothing, like an empty posting list). -/
def postings (ki : List (String × List String)) (w : String) : List String :=
  (assocGet? ki w).getD []

/-- The number of distinct query tokens whose posting list contains `d`. -/
def countMatches (ki : List (String × List String)) (ws : List String)
    (d : String) : ℕ :=
  ws.countP (fun w => decide (d ∈ postings ki w))

/-- The candidate doc_ids contributed by the tokens `ws`, in first-seen
order, excluding ids already in `seen`. -/
def newDocs (ki : List (String × List String)) :
    List String → List String → List String
  | [], _ => []
  | w :: ws, seen =>
    let fresh := (postings ki w).filter (fun d => d ∉ seen)
    fresh ++ newDocs ki ws (seen ++ fresh)

/-- All candidate doc_ids of a query, in first-seen order. -/
def candidateDocs (ki : List (String × List String)) (ws : List String) :
    List String :=
  newDocs ki ws []

theorem assocGet?_eq_none_iff {β : Type} (l : List (String × β)) (k : String) :
    assocGet? l k = none ↔ k ∉ l.map Prod.fst := by
  induction l with
  | nil => simp [assocGet?]
  | cons p rest ih =>
    obtain ⟨pk, pv⟩ := p
    rw [assocGet?_cons]
    by_cases h : pk = k
    · subst h
      simp
    · rw [if_neg h, ih]
      simp only [List.map_cons, List.mem_cons]
      constructor
      · intro hni hc
        rcases hc with hc | hc
        · exact h hc.symm
        · exact hni hc
      · intro hni hc
        exact hni (Or.inr hc)

theorem assocGet?_map_pair {β : Type} (l : List String) (f : String → β)
    (k : String) :
    assocGet? (l.map (fun d => (d, f d))) k =
      if k ∈ l then some (f k) else none := by
  induction l with
  | nil => simp [assocGet?]
  | cons d t ih =>
    rw [List.map_cons, assocGet?_cons]
    by_cases h : d = k
    · subst h
      simp
    · simp only [List.mem_cons]
      rw [if_neg h, ih]
      by_cases hm : k ∈ t
      · simp [hm]
      · rw [if_neg hm,
          if_neg (show ¬(k = d ∨ k ∈ t) from
            fun hc => hc.elim (fun hc => h hc.symm) hm)]

theorem assoc_ext {β : Type} :
    ∀ (l1 l2 : List (String × β)),
      l1.map Prod.fst = l2.map Prod.fst → (l1.map Prod.fst).Nodup →
      (∀ k, assocGet? l1 k = assocGet? l2 k) → l1 = l2 := by
  intro l1
  induction l1 with
  | nil =>
    intro l2 hk _ _
    cases l2 with
    | nil => rfl
    | cons p t => cases hk
  | cons p t1 ih =>
    intro l2 hk hnd hget
    obtain ⟨k0, v0⟩ := p
    cases l2 with
    | nil => cases hk
    | cons q t2 =>
      obtain ⟨k0', v2⟩ := q
      rw [List.map_cons, List.map_cons] at hk
      have hk0 : k0 = k0' := (List.cons.injEq _ _ _ _ ▸ hk).1
      subst hk0
      have hkt : t1.map Prod.fst = t2.map Prod.fst :=
        (List.cons.injEq _ _ _ _ ▸ hk).2
      have hv : v0 = v2 := by
        have := hget k0
        rw [assocGet?_cons, assocGet?_cons, if_pos rfl, if_pos rfl] at this
        exact Option.some.inj this
      subst hv
      have hnotin : k0 ∉ t1.map Prod.fst := by
        rw [List.map_cons] at hnd
        exact (List.nodup_cons.mp hnd).1
      have hndt : (t1.map Prod.fst).Nodup := by
        rw [List.map_cons] at hnd
        exact (List.nodup_cons.mp hnd).2
      have htl : t1 = t2 := by
        refine ih t2 hkt hndt ?_
        intro k
        by_cases h : k = k0
        · subst h
          rw [(assocGet?_eq_none_iff t1 k).mpr hnotin,
            (assocGet?_eq_none_iff t2 k).mpr (hkt ▸ hnotin)]
        · have := hget k
          rw [assocGet?_cons, assocGet?_cons,
            if_neg (fun hh => h hh.symm), if_neg (fun hh => h hh.symm)] at this
          exact this
      rw [htl]

theorem bumpScore_keys (sc : List (String × ℚ)) (d : String) :
    (bumpScore sc d).map Prod.fst =
      if d ∈ sc.map Prod.fst then sc.map Prod.fst
      else sc.map Prod.fst ++ [d] := by
  induction sc with
  | nil => simp [bumpScore]
  | cons p rest ih =>
    obtain ⟨d', c⟩ := p
    rw [bumpScore]
    by_cases h : d' = d
    · subst h
      simp
    · rw [if_neg h, List.map_cons, List.map_cons, ih]
      by_cases hm : d ∈ rest.map Prod.fst
      · rw [if_pos hm, if_pos (List.mem_cons.mpr (Or.inr hm))]
      · rw [if_neg hm,
          if_neg (show ¬ d ∈ d' :: rest.map Prod.fst from
            fun hc => (List.mem_cons.mp hc).elim (fun hc => h hc.symm) hm),
          List.cons_append]

theorem bumpScore_lookup (sc : List (String × ℚ)) (d k : String) :
    assocGet? (bumpScore sc d) k =
      if k = d then some (((assocGet? sc d).getD 0) + 1) else assocGet? sc k := by
  induction sc with
  | nil =>
    by_cases h : k = d
    · subst h
      simp [bumpScore, assocGet?_cons, assocGet?]
    · have h' : ¬ d = k := fun hh => h hh.symm
      simp [bumpScore, assocGet?_cons, assocGet?, h, h']
  | cons p rest ih =>
    obtain ⟨d', c⟩ := p
    rw [bumpScore]
    by_cases h : d' = d
    · subst h
      rw [if_pos rfl]
      by_cases hk : k = d'
      · subst hk
        rw [assocGet?_cons, if_pos rfl, if_pos rfl, assocGet?_cons, if_pos rfl]
        simp
      · rw [assocGet?_cons, if_neg (fun hh => hk hh.symm),
          if_neg hk, assocGet?_cons, if_neg (fun hh => hk hh.symm)]
    · rw [if_neg h, assocGet?_cons, ih]
      by_cases hkd : k = d
      · subst hkd
        rw [if_pos rfl, if_pos rfl,
          if_neg (show ¬ d' = k from h), assocGet?_cons,
          if_neg (show ¬ d' = k from h)]
      · rw [if_neg hkd, if_neg hkd, assocGet?_cons]

theorem foldl_bump_keys (p : List String) :
    ∀ sc : List (String × ℚ), p.Nodup →
      (p.foldl bumpScore sc).map Prod.fst =
        sc.map Prod.fst ++ p.filter (fun d => d ∉ sc.map Prod.fst) := by
  induction p with
  | nil => intro sc _; simp
  | cons d p' ih =>
    intro sc hnd
    obtain ⟨hd, hnd'⟩ := List.nodup_cons.mp hnd
    rw [List.foldl_cons, ih _ hnd', bumpScore_keys]
    by_cases hm : d ∈ sc.map Prod.fst
    · rw [if_pos hm, List.filter_cons]
      simp [hm]
    · have hcong : p'.filter (fun x => x ∉ (sc.map Prod.fst ++ [d])) =
          p'.filter (fun x => x ∉ sc.map Prod.fst) := by
        refine List.filter_congr ?_
        intro x hx
        have hxd : x ≠ d := fun hc => hd (hc ▸ hx)
        simp [List.mem_append, hxd]
      rw [if_neg hm, hcong, List.filter_cons]
      simp [hm, List.append_assoc]

theorem foldl_bump_lookup (p : List String) :
    ∀ (sc : List (String × ℚ)) (k : String), p.Nodup →
      assocGet? (p.foldl bumpScore sc) k =
        if k ∈ p then some (((assocGet? sc k).getD 0) + 1)
        else assocGet? sc k := by
  induction p with
  | nil => intro sc k _; simp
  | cons d p' ih =>
    intro sc k hnd
    obtain ⟨hd, hnd'⟩ := List.nodup_cons.mp hnd
    rw [List.foldl_cons, ih _ _ hnd', bumpScore_lookup]
    by_cases hk1 : k ∈ p'
    · have hkd : ¬ k = d := fun hc => hd (hc ▸ hk1)
      rw [if_pos hk1, if_neg hkd, if_pos (List.mem_cons.mpr (Or.inr hk1))]
    · by_cases hkd : k = d
      · subst hkd
        rw [if_neg hk1, if_pos rfl, if_pos (List.mem_cons.mpr (Or.inl rfl))]
      · rw [if_neg hk1, if_neg hkd,
          if_neg (show ¬ k ∈ d :: p' from
            fun hc => (List.mem_cons.mp hc).elim hkd hk1)]

theorem docScores_eq_foldl (e : SearchEngine) (ws : List String) :
    e.docScores ws =
      ws.foldl (fun sc w => (postings e.keyword_index w).foldl bumpScore sc) [] := by
  unfold SearchEngine.docScores
  congr 1
  funext sc w
  unfold postings
  cases h : assocGet? e.keyword_index w <;> simp

theorem foldl_postings_keys (ki : List (String × List String))
    (ws : List String) :
    ∀ sc : List (String × ℚ), (∀ w ∈ ws, (postings ki w).Nodup) →
      (ws.foldl (fun sc w => (postings ki w).foldl bumpScore sc) sc).map Prod.fst =
        sc.map Prod.fst ++ newDocs ki ws (sc.map Prod.fst) := by
  induction ws with
  | nil => intro sc _; simp [newDocs]
  | cons w ws' ih =>
    intro sc hnd
    rw [List.foldl_cons,
      ih _ (fun x hx => hnd x (List.mem_cons_of_mem _ hx)),
      foldl_bump_keys _ _ (hnd w (List.mem_cons_self _ _)), newDocs,
      List.append_assoc]

theorem foldl_postings_getD (ki : List (String × List String))
    (ws : List String) :
    ∀ (sc : List (String × ℚ)) (k : String),
      (∀ w ∈ ws, (postings ki w).Nodup) →
      ((assocGet? (ws.foldl
          (fun sc w => (postings ki w).foldl bumpScore sc) sc) k).getD 0) =
        ((assocGet? sc k).getD 0) + (countMatches ki ws k : ℚ) := by
  induction ws with
  | nil => intro sc k _; simp [countMatches]
  | cons w ws' ih =>
    intro sc k hnd
    rw [List.foldl_cons,
      ih _ _ (fun x hx => hnd x (List.mem_cons_of_mem _ hx)),
      foldl_bump_lookup _ _ _ (hnd w (List.mem_cons_self _ _))]
    have hcnt : countMatches ki (w :: ws') k =
        countMatches ki ws' k + if k ∈ postings ki w then 1 else 0 := by
      unfold countMatches
      rw [List.countP_cons]
      by_cases h : k ∈ postings ki w <;> simp [h]
    rw [hcnt]
    by_cases h : k ∈ postings ki w
    · rw [if_pos h, if_pos h]
      simp only [Option.getD_some]
      push_cast
      ring
    · rw [if_neg h, if_neg h]
      push_cast
      ring

theorem newDocs_spec (ki : List (String × List String)) (ws : List String) :
    ∀ seen, (∀ w ∈ ws, (postings ki w).Nodup) →
      (newDocs ki ws seen).Nodup ∧
      (∀ d ∈ newDocs ki ws seen, d ∉ seen) ∧
      (∀ d, d ∈ newDocs ki ws seen ↔
        d ∉ seen ∧ ∃ w ∈ ws, d ∈ postings ki w) := by
  induction ws with
  | nil =>
    intro seen _
    refine ⟨List.nodup_nil, ?_, ?_⟩
    · intro d hd; cases hd
    · intro d; simp [newDocs]
  | cons w ws' ih =>
    intro seen hnd
    obtain ⟨ihn, ihs, ihm⟩ :=
      ih (seen ++ (postings ki w).filter (fun d => d ∉ seen))
        (fun x hx => hnd x (List.mem_cons_of_mem _ hx))
    have hfr : ((postings ki w).filter (fun d => d ∉ seen)).Nodup :=
      (hnd w (List.mem_cons_self _ _)).filter _
    have hexp : newDocs ki (w :: ws') seen =
        (postings ki w).filter (fun d => d ∉ seen) ++
          newDocs ki ws' (seen ++ (postings ki w).filter (fun d => d ∉ seen)) := by
      rw [newDocs]
    refine ⟨?_, ?_, ?_⟩
    · rw [hexp]
      refine List.Nodup.append hfr ihn ?_
      intro a ha hc
      exact (ihs a hc) (List.mem_append.mpr (Or.inr ha))
    · intro d hd
      rw [hexp] at hd
      rcases List.mem_append.mp hd with hd | hd
      · have := List.of_mem_filter hd
        simpa using this
      · intro hs
        exact (ihs d hd) (List.mem_append.mpr (Or.inl hs))
    · intro d
      rw [hexp, List.mem_append]
      constructor
      · rintro (hd | hd)
        · have hp := List.mem_of_mem_filter hd
          have hs := List.of_mem_filter hd
          simp only [decide_eq_true_eq] at hs
          exact ⟨hs, w, List.mem_cons_self _ _, hp⟩
        · obtain ⟨hs, w', hw', hp⟩ := (ihm d).mp hd
          refine ⟨fun hc => hs (List.mem_append.mpr (Or.inl hc)), w',
            List.mem_cons_of_mem _ hw', hp⟩
      · rintro ⟨hs, w', hw', hp⟩
        by_cases hf : d ∈ (postings ki w).filter (fun d => d ∉ seen)
        · exact Or.inl hf
        · rcases List.mem_cons.mp hw' with hw0 | hw2
          · subst hw0
            exact absurd (List.mem_filter.mpr ⟨hp, by simpa using hs⟩) hf
          · refine Or.inr ((ihm d).mpr ⟨?_, w', hw2, hp⟩)
            intro hc
            rcases List.mem_append.mp hc with hc | hc
            · exact hs hc
            · exact hf hc

theorem docScores_spec (e : SearchEngine) (ws : List String)
    (hnd : ∀ w ∈ ws, (postings e.keyword_index w).Nodup) :
    e.docScores ws = (candidateDocs e.keyword_index ws).map
      (fun d => (d, (countMatches e.keyword_index ws d : ℚ))) := by
  have hkeys : (e.docScores ws).map Prod.fst = candidateDocs e.keyword_index ws := by
    rw [docScores_eq_foldl, foldl_postings_keys _ _ _ hnd]
    simp [candidateDocs]
  obtain ⟨hnodup, -, -⟩ := newDocs_spec e.keyword_index ws [] hnd
  refine assoc_ext _ _ ?_ ?_ ?_
  · rw [hkeys, List.map_map]
    rw [show (Prod.fst ∘ fun d : String =>
        (d, (countMatches e.keyword_index ws d : ℚ))) = id from rfl, List.map_id]
  · rw [hkeys]
    exact hnodup
  · intro k
    rw [assocGet?_map_pair]
    by_cases hm : k ∈ candidateDocs e.keyword_index ws
    · rw [if_pos hm]
      have hdom : k ∈ (e.docScores ws).map Prod.fst := by rw [hkeys]; exact hm
      rcases hlk : assocGet? (e.docScores ws) k with _ | v
      · exact absurd ((assocGet?_eq_none_iff _ _).mp hlk) (by simp [hdom])
      · have hv : v = (countMatches e.keyword_index ws k : ℚ) := by
          have h0 := foldl_postings_getD e.keyword_index ws [] k hnd
          rw [← docScores_eq_foldl, hlk] at h0
          simpa [assocGet?] using h0
        exact congrArg some hv
    · rw [if_neg hm]
      refine (assocGet?_eq_none_iff _ _).mpr ?_
      rw [hkeys]
      exact hm

/-- **C8**: on a keyword index whose posting lists are duplicate-free (no
doc_id indexed twice) and a query with at least one token, the `doc_scores`
dict maps each candidate doc_id — listed in first-seen order — to the number
of distinct query tokens whose posting list contains it; every result of
`_keyword_search` carries such a count divided by the distinct-token count;
and the result list is the `top_k`-prefix of a stable descending sort of the
candidates (ties in first-seen order), resolved to metadata. -/
theorem keyword_search_spec (e : SearchEngine) (query : String) (top_k : ℤ)
    (hnd : ∀ w l, assocGet? e.keyword_index w = some l → l.Nodup)
    (hq : pyTokens query ≠ []) (hk : 0 ≤ top_k) :
    e.docScores (pyTokens query) =
      (candidateDocs e.keyword_index (pyTokens query)).map
        (fun d => (d, (countMatches e.keyword_index (pyTokens query) d : ℚ))) ∧
    (∀ p ∈ e.keywordSearch query top_k, ∃ d : String,
        e.lookupMetadata d = some p.2 ∧
        p.1 = (countMatches e.keyword_index (pyTokens query) d : ℚ) /
          ((pyTokens query).length : ℚ)) ∧
    (∃ dl : List (ℕ × (String × ℚ)),
      dl.Perm (e.docScores (pyTokens query)).enum ∧
      dl.Pairwise (fun a b => b.2.2 < a.2.2 ∨ (a.2.2 = b.2.2 ∧ a.1 ≤ b.1)) ∧
      e.keywordSearch query top_k =
        ((dl.map (fun x => x.2)).take top_k.toNat).filterMap
          (fun p => (e.lookupMetadata p.1).map
            (fun m => (p.2 / ((pyTokens query).length : ℚ), m)))) := by
  have hnd' : ∀ w ∈ pyTokens query, (postings e.keyword_index w).Nodup := by
    intro w _
    unfold postings
    cases h : assocGet? e.keyword_index w with
    | none => simp
    | some l => exact hnd w l h
  have hds := docScores_spec e (pyTokens query) hnd'
  refine ⟨hds, ?_, ?_⟩
  · intro p hp
    unfold SearchEngine.keywordSearch at hp
    rw [List.mem_filterMap] at hp
    obtain ⟨q, hq1, hq2⟩ := hp
    have hq3 : q ∈ e.docScores (pyTokens query) :=
      (List.mem_mergeSort).mp (mem_pySlice hq1)
    rw [hds, List.mem_map] at hq3
    obtain ⟨d, -, hd2⟩ := hq3
    obtain ⟨qa, qb⟩ := q
    cases hd2
    rcases hlm : e.lookupMetadata d with _ | m
    · rw [hlm] at hq2
      cases hq2
    · rw [hlm] at hq2
      cases hq2
      exact ⟨d, hlm, rfl⟩
  · obtain ⟨dl, hperm, hpw, heq⟩ :=
      mergeSort_descKey_spec (Prod.snd : String × ℚ → ℚ)
        (e.docScores (pyTokens query))
    refine ⟨dl, hperm, hpw, ?_⟩
    unfold SearchEngine.keywordSearch
    dsimp only
    rw [pySlice_nonneg _ _ hk]
    have hcomp : descBySnd (γ := String) =
        (fun a b : String × ℚ => decide (b.2 ≤ a.2)) := rfl
    rw [hcomp, heq]

/-- An engine whose keyword index holds one posting list. -/
def engK : SearchEngine :=
  { dimension := 1, pyhash := hash0, news_store := VectorStore.mk0 1,
    stocks_store := VectorStore.mk0 1, portfolio_store := VectorStore.mk0 1,
    keyword_index := [("apple", ["stock_0"])] }

theorem keyword_search_spec_witness :
    engK.docScores (pyTokens "apple") =
      (candidateDocs engK.keyword_index (pyTokens "apple")).map
        (fun d => (d, (countMatches engK.keyword_index (pyTokens "apple") d : ℚ))) :=
  (keyword_search_spec engK "apple" 5
    (by
      intro w l h
      rw [show engK.keyword_index = [("apple", ["stock_0"])] from rfl,
        assocGet?_cons] at h
      split_ifs at h with hw
      · cases h
        decide
      · cases h)
    (by decide) (by decide)).1

/-! ## C1: merge, deduplication by doc_id, and score maximality -/

theorem dedupByDocId_subset :
    ∀ (l : List (ℝ × Doc)) (seen : List Val) (p : ℝ × Doc),
      p ∈ dedupByDocId l seen →
      p ∈ l ∧ ∃ v, idOf? p = some v ∧ v ∉ seen := by
  intro l
  induction l with
  | nil => intro seen p hp; cases hp
  | cons p0 rest ih =>
    intro seen p hp
    rw [dedupByDocId] at hp
    rcases h0 : idOf? p0 with _ | v0 <;> simp only [h0] at hp
    · obtain ⟨hmem, hv⟩ := ih seen p hp
      exact ⟨List.mem_cons_of_mem _ hmem, hv⟩
    · split_ifs at hp with hseen
      · obtain ⟨hmem, hv⟩ := ih seen p hp
        exact ⟨List.mem_cons_of_mem _ hmem, hv⟩
      · rcases List.mem_cons.mp hp with hp | hp
        · subst hp
          exact ⟨List.mem_cons_self _ _, v0, h0, hseen⟩
        · obtain ⟨hmem, v, hv, hvs⟩ := ih _ p hp
          exact ⟨List.mem_cons_of_mem _ hmem, v, hv,
            fun hc => hvs (List.mem_cons_of_mem _ hc)⟩

theorem dedupByDocId_ids_nodup :
    ∀ (l : List (ℝ × Doc)) (seen : List Val),
      ((dedupByDocId l seen).filterMap idOf?).Nodup ∧
      ∀ v ∈ (dedupByDocId l seen).filterMap idOf?, v ∉ seen := by
  intro l
  induction l with
  | nil => intro seen; exact ⟨List.nodup_nil, by simp [dedupByDocId]⟩
  | cons p0 rest ih =>
    intro seen
    rw [dedupByDocId]
    rcases h0 : idOf? p0 with _ | v0 <;> simp only [h0]
    · exact ih seen
    · split_ifs with hseen
      · exact ih seen
      · rw [List.filterMap_cons, h0]
        obtain ⟨ihn, ihs⟩ := ih (v0 :: seen)
        refine ⟨List.nodup_cons.mpr ⟨?_, ihn⟩, ?_⟩
        · intro hc
          exact (ihs v0 hc) (List.mem_cons_self _ _)
        · intro v hv
          rcases List.mem_cons.mp hv with hv | hv
          · subst hv
            exact hseen
          · exact fun hc => (ihs v hv) (List.mem_cons_of_mem _ hc)

theorem dedupByDocId_max :
    ∀ (l : List (ℝ × Doc)), l.Pairwise (fun a b => b.1 ≤ a.1) →
      ∀ (seen : List Val) (p : ℝ × Doc), p ∈ dedupByDocId l seen →
        ∀ p' ∈ l, idOf? p' = idOf? p → p'.1 ≤ p.1 := by
  intro l
  induction l with
  | nil => intro _ seen p hp; cases hp
  | cons p0 rest ih =>
    intro hsort seen p hp p' hp' hid
    obtain ⟨hhead, htail⟩ := List.pairwise_cons.mp hsort
    rw [dedupByDocId] at hp
    rcases h0 : idOf? p0 with _ | v0 <;> simp only [h0] at hp
    · rcases List.mem_cons.mp hp' with hp' | hp'
      · obtain ⟨-, v, hv, -⟩ := dedupByDocId_subset rest seen p hp
        subst hp'
        rw [h0, hv] at hid
        cases hid
      · exact ih htail seen p hp p' hp' hid
    · split_ifs at hp with hseen
      · rcases List.mem_cons.mp hp' with hp' | hp'
        · obtain ⟨-, v, hv, hvs⟩ := dedupByDocId_subset rest seen p hp
          subst hp'
          rw [h0, hv] at hid
          cases hid
          exact absurd hseen hvs
        · exact ih htail seen p hp p' hp' hid
      · rcases List.mem_cons.mp hp with hp | hp
        · subst hp
          rcases List.mem_cons.mp hp' with hp' | hp'
          · subst hp'
            exact le_refl _
          · exact hhead p' hp'
        · rcases List.mem_cons.mp hp' with hp' | hp'
          · obtain ⟨-, v, hv, hvs⟩ := dedupByDocId_subset rest (v0 :: seen) p hp
            subst hp'
            rw [h0, hv] at hid
            cases hid
            exact absurd (List.mem_cons_self _ _) hvs
          · exact ih htail _ p hp p' hp' hid

theorem dedupByDocId_complete :
    ∀ (l : List (ℝ × Doc)) (seen : List Val) (v : Val), v ∉ seen →
      (∃ p ∈ l, idOf? p = some v) →
      ∃ p ∈ dedupByDocId l seen, idOf? p = some v := by
  intro l
  induction l with
  | nil =>
    intro seen v _ h
    obtain ⟨p, hp, -⟩ := h
    cases hp
  | cons p0 rest ih =>
    intro seen v hvs h
    rw [dedupByDocId]
    rcases h0 : idOf? p0 with _ | v0 <;> simp only [h0]
    · obtain ⟨p, hp, hpv⟩ := h
      rcases List.mem_cons.mp hp with hp | hp
      · subst hp
        rw [h0] at hpv
        cases hpv
      · exact ih seen v hvs ⟨p, hp, hpv⟩
    · split_ifs with hseen
      · obtain ⟨p, hp, hpv⟩ := h
        rcases List.mem_cons.mp hp with hp | hp
        · subst hp
          rw [h0] at hpv
          cases hpv
          exact absurd hseen hvs
        · exact ih seen v hvs ⟨p, hp, hpv⟩
      · by_cases hv0 : v = v0
        · subst hv0
          exact ⟨p0, List.mem_cons_self _ _, h0⟩
        · obtain ⟨p, hp, hpv⟩ := h
          rcases List.mem_cons.mp hp with hp | hp
          · subst hp
            rw [h0] at hpv
            cases hpv
            exact absurd rfl hv0
          · obtain ⟨q, hq, hqv⟩ :=
              ih (v0 :: seen) v
                (fun hc => (List.mem_cons.mp hc).elim hv0 hvs)
                ⟨p, hp, hpv⟩
            exact ⟨q, List.mem_cons_of_mem _ hq, hqv⟩

theorem dedupByDocId_length :
    ∀ (l : List (ℝ × Doc)) (seen : List Val),
      (dedupByDocId l seen).length ≤ l.length := by
  intro l
  induction l with
  | nil => intro seen; exact le_refl _
  | cons p0 rest ih =>
    intro seen
    rw [dedupByDocId]
    rcases h0 : idOf? p0 with _ | v0 <;> simp only [h0]
    · exact (ih seen).trans (Nat.le_succ _)
    · split_ifs
      · exact (ih seen).trans (Nat.le_succ _)
      · simpa using Nat.succ_le_succ (ih _)

theorem mergeSort_descByFst_pairwise (l : List (ℝ × Doc)) :
    (l.mergeSort descByFst).Pairwise (fun a b : ℝ × Doc => b.1 ≤ a.1) := by
  have h := @List.sorted_mergeSort (ℝ × Doc) descByFst
    (fun a b c hab hbc => descKey_trans (Prod.fst : ℝ × Doc → ℝ) a b c hab hbc)
    (fun a b => descKey_total (Prod.fst : ℝ × Doc → ℝ) a b) l
  refine h.imp ?_
  intro a b hab
  simpa [descByFst] using hab

/-- **C1 amended**: `SearchEngine.search` returns each doc_id at most once;
every returned entry is one of the merged candidates and carries the highest
score among all candidates with its doc_id; and — provided the final `top_k`
truncation does not displace it, e.g. whenever the number of merged
candidates is at most `top_k` — every candidate doc_id (in particular one
coming from both a vector search and the keyword search) appears exactly
once. -/
theorem searchEngine_search_dedup (e : SearchEngine) (query : String)
    (top_k : ℤ) (doc_types : Option (List String)) (htk : 0 ≤ top_k) :
    ((e.search query top_k doc_types).filterMap idOf?).Nodup ∧
    (∀ p ∈ e.search query top_k doc_types,
      p ∈ e.allCandidates query top_k
        (doc_types.getD ["news", "stock", "portfolio"]) ∧
      ∀ p' ∈ e.allCandidates query top_k
        (doc_types.getD ["news", "stock", "portfolio"]),
        idOf? p' = idOf? p → p'.1 ≤ p.1) ∧
    ((e.allCandidates query top_k
        (doc_types.getD ["news", "stock", "portfolio"])).length ≤ top_k.toNat →
      ∀ v, (∃ p ∈ e.allCandidates query top_k
          (doc_types.getD ["news", "stock", "portfolio"]), idOf? p = some v) →
        ∃ p ∈ e.search query top_k doc_types, idOf? p = some v) := by
  have hunfold : e.search query top_k doc_types =
      pySlice (dedupByDocId
        ((e.allCandidates query top_k
          (doc_types.getD ["news", "stock", "portfolio"])).mergeSort descByFst)
        []) top_k := rfl
  set all := e.allCandidates query top_k
    (doc_types.getD ["news", "stock", "portfolio"]) with hall
  refine ⟨?_, ?_, ?_⟩
  · rw [hunfold, pySlice_nonneg _ _ htk]
    have hsub : List.Sublist
        ((List.take top_k.toNat
          (dedupByDocId (all.mergeSort descByFst) [])).filterMap idOf?)
        ((dedupByDocId (all.mergeSort descByFst) []).filterMap idOf?) :=
      (List.take_sublist _ _).filterMap _
    exact (dedupByDocId_ids_nodup (all.mergeSort descByFst) []).1.sublist hsub
  · intro p hp
    rw [hunfold] at hp
    have hdp : p ∈ dedupByDocId (all.mergeSort descByFst) [] := mem_pySlice hp
    have hmem : p ∈ all :=
      (List.mem_mergeSort).mp (dedupByDocId_subset _ _ _ hdp).1
    refine ⟨hmem, ?_⟩
    intro p' hp' hid
    exact dedupByDocId_max (all.mergeSort descByFst)
      (mergeSort_descByFst_pairwise all) [] p hdp p'
      ((List.mem_mergeSort).mpr hp') hid
  · intro hlen v hv
    have hdlen : (dedupByDocId (all.mergeSort descByFst) []).length ≤
        top_k.toNat :=
      le_trans (le_trans (dedupByDocId_length _ _)
        (le_of_eq (List.length_mergeSort _))) hlen
    have htake : pySlice (dedupByDocId (all.mergeSort descByFst) []) top_k =
        dedupByDocId (all.mergeSort descByFst) [] := by
      rw [pySlice_nonneg _ _ htk]
      exact List.take_of_length_le hdlen
    rw [hunfold, htake]
    obtain ⟨p, hp, hpv⟩ := hv
    exact dedupByDocId_complete (all.mergeSort descByFst) [] v (by simp)
      ⟨p, (List.mem_mergeSort).mpr hp, hpv⟩

/-- A constant stand-in for the process hash (every string hashes to 500, so
every query-embedding component is `0.5`). -/
def h500 : String → ℕ := fun _ => 500

/-- A news document whose only token is "growth". -/
def n0 : Doc := [("title", Val.str "growth"), ("summary", Val.str "")]

/-- A stock document whose only token is "apple". -/
def d0 : Doc := [("name", Val.str "apple"), ("sector", Val.str "")]

/-- `n0` after tagging by `index_news`. -/
def n0t : Doc := [("title", Val.str "growth"), ("summary", Val.str ""),
  ("doc_id", Val.str "news_0"), ("doc_type", Val.str "news")]

/-- `d0` after tagging by `index_stocks`. -/
def d0t : Doc := [("name", Val.str "apple"), ("sector", Val.str ""),
  ("doc_id", Val.str "stock_0"), ("doc_type", Val.str "stock")]

/-- A fresh dimension-2 engine with the constant hash. -/
def engA0 : SearchEngine := SearchEngine.mk0 2 h500

/-- The news store of `engA`. -/
def engAnews : VectorStore :=
  { dimension := 2, vectors := [[1, 1]], metadata := [n0t],
    id_to_index := [("news_0", 0)], index_built := false }

/-- The stocks store of `engA`. -/
def engAstocks : VectorStore :=
  { dimension := 2, vectors := [[1, 1]], metadata := [d0t],
    id_to_index := [("stock_0", 0)], index_built := false }

/-- The engine obtained by indexing `n0` (news) and `d0` (stocks), both with
the embedding `[1, 1]`. -/
def engA : SearchEngine :=
  { dimension := 2, pyhash := h500, news_store := engAnews,
    stocks_store := engAstocks, portfolio_store := VectorStore.mk0 2,
    keyword_index := [("growth", ["news_0"]), ("apple", ["stock_0"])] }

theorem engA_build :
    (engA0.index_news [n0] [[1, 1]]).bind
      (fun e1 => e1.index_stocks [d0] [[1, 1]]) = Except.ok engA := rfl

theorem engA_qe :
    engA.createQueryEmbedding "apple banana" = [1/2, 1/2] := by
  show (List.range 2).map _ = _
  rw [show (2 : ℕ) = 1 + 1 from rfl, List.range_succ, List.range_succ,
    List.range_zero]
  norm_num [h500, engA]

theorem sqrt_two_mul_sqrt_half : Real.sqrt 2 * Real.sqrt (1 / 2) = 1 := by
  rw [← Real.sqrt_mul (by norm_num : (0:ℝ) ≤ 2)]
  norm_num [Real.sqrt_one]

theorem simVal_11 : simVal? [1, 1] [1/2, 1/2] = some 1 := by
  unfold simVal? cosineSim rnorm
  rw [if_neg (by norm_num [normSq, dot])]
  have h1 : ((normSq [(1 : ℚ), 1] : ℚ) : ℝ) = 2 := by norm_num [normSq, dot]
  have h2 : ((normSq [(1 : ℚ)/2, 1/2] : ℚ) : ℝ) = 1 / 2 := by
    norm_num [normSq, dot]
  have h3 : ((dot [(1 : ℚ), 1] [1/2, 1/2] : ℚ) : ℝ) = 1 := by norm_num [dot]
  rw [h1, h2, h3, sqrt_two_mul_sqrt_half]
  norm_num

theorem engA_news_candidates :
    engA.news_store.candidates [1/2, 1/2] 0 = [((1 : ℝ), n0t)] := by
  unfold VectorStore.candidates
  show ((([[1, 1]] : List (List ℚ)).zip [n0t]).filterMap _) = _
  simp only [List.zip_cons_cons, List.zip_nil_right, List.filterMap_cons,
    List.filterMap_nil, simVal_11]
  norm_num

theorem engA_stocks_candidates :
    engA.stocks_store.candidates [1/2, 1/2] 0 = [((1 : ℝ), d0t)] := by
  unfold VectorStore.candidates
  show ((([[1, 1]] : List (List ℚ)).zip [d0t]).filterMap _) = _
  simp only [List.zip_cons_cons, List.zip_nil_right, List.filterMap_cons,
    List.filterMap_nil, simVal_11]
  norm_num

theorem engA_news_search :
    engA.news_store.search [1/2, 1/2] 1 0 = [((1 : ℝ), n0t)] := by
  rw [search_eq_slice _ _ _ _ (by norm_num [normSq, dot]), engA_news_candidates,
    List.mergeSort_singleton]
  rfl

theorem engA_stocks_search :
    engA.stocks_store.search [1/2, 1/2] 1 0 = [((1 : ℝ), d0t)] := by
  rw [search_eq_slice _ _ _ _ (by norm_num [normSq, dot]), engA_stocks_candidates,
    List.mergeSort_singleton]
  rfl

theorem engA_tokens : pyTokens "apple banana" = ["apple", "banana"] := rfl

theorem engA_docScores :
    engA.docScores ["apple", "banana"] = [("stock_0", 1)] := rfl

theorem engA_keyword :
    engA.keywordSearch "apple banana" 1 = [((1 : ℚ)/2, d0t)] := by
  unfold SearchEngine.keywordSearch
  dsimp only
  rw [engA_tokens, engA_docScores, List.mergeSort_singleton]
  show List.filterMap _ [("stock_0", (1 : ℚ))] = _
  simp only [List.filterMap_cons, List.filterMap_nil]
  rw [show engA.lookupMetadata "stock_0" = some d0t from rfl]
  norm_num

theorem descByFst_true {δ : Type} (a b : ℝ × δ) (h : b.1 ≤ a.1) :
    descByFst a b = true := by
  unfold descByFst
  exact decide_eq_true h

theorem engA_all :
    engA.allCandidates "apple banana" 1 ["news", "stock", "portfolio"] =
      [((1 : ℝ), n0t), ((1 : ℝ), d0t), ((1/2 : ℝ), d0t)] := by
  unfold SearchEngine.allCandidates SearchEngine.vectorCandidates
  rw [engA_qe,
    if_pos (show ("news" ∈ ["news", "stock", "portfolio"] ∧
      engA.news_store.vectors ≠ []) from ⟨by decide, by decide⟩),
    if_pos (show ("stock" ∈ ["news", "stock", "portfolio"] ∧
      engA.stocks_store.vectors ≠ []) from ⟨by decide, by decide⟩),
    if_neg (show ¬ ("portfolio" ∈ ["news", "stock", "portfolio"] ∧
      engA.portfolio_store.vectors ≠ []) from fun hc => hc.2 rfl),
    engA_news_search, engA_stocks_search, engA_keyword]
  norm_num

theorem engA_sorted :
    ([((1 : ℝ), n0t), ((1 : ℝ), d0t), ((1/2 : ℝ), d0t)]).mergeSort descByFst =
      [((1 : ℝ), n0t), ((1 : ℝ), d0t), ((1/2 : ℝ), d0t)] := by
  apply List.mergeSort_of_sorted
  refine List.Pairwise.cons ?_ (List.Pairwise.cons ?_
    (List.pairwise_singleton _ _))
  · intro b hb
    rcases List.mem_cons.mp hb with h | h
    · subst h
      exact descByFst_true _ _ (by norm_num)
    · rw [List.mem_singleton] at h
      subst h
      exact descByFst_true _ _ (by norm_num)
  · intro b hb
    rw [List.mem_singleton] at hb
    subst hb
    exact descByFst_true _ _ (by norm_num)

theorem engA_dedup :
    dedupByDocId [((1 : ℝ), n0t), ((1 : ℝ), d0t), ((1/2 : ℝ), d0t)] [] =
      [((1 : ℝ), n0t), ((1 : ℝ), d0t)] := rfl

theorem engA_search :
    engA.search "apple banana" 1 none = [((1 : ℝ), n0t)] := by
  show pySlice (dedupByDocId ((engA.allCandidates "apple banana" 1
      ["news", "stock", "portfolio"]).mergeSort descByFst) []) 1 = _
  rw [engA_all, engA_sorted, engA_dedup]
  rfl

/-- **C1 counterexample**: on the engine built by indexing one news and one
stock document with equal embeddings, the stock document is a candidate from
both its category's vector search (score 1) and the keyword search (score
1/2) for the query `"apple banana"` with `top_k = 1`, yet `SearchEngine.search`
does not return it at all — the news document, tied at score 1 but merged
first, takes the single slot.  The dual-source candidate thus appears zero
times, not exactly once. -/
theorem searchEngine_dual_candidate_counterexample :
    ((engA0.index_news [n0] [[1, 1]]).bind
      (fun e1 => e1.index_stocks [d0] [[1, 1]]) = Except.ok engA) ∧
    engA.stocks_store.search (engA.createQueryEmbedding "apple banana") 1 0 =
      [((1 : ℝ), d0t)] ∧
    engA.keywordSearch "apple banana" 1 = [((1 : ℚ)/2, d0t)] ∧
    engA.search "apple banana" 1 none = [((1 : ℝ), n0t)] ∧
    ∀ p ∈ engA.search "apple banana" 1 none,
      idOf? p ≠ some (Val.str "stock_0") := by
  refine ⟨engA_build, ?_, engA_keyword, engA_search, ?_⟩
  · rw [engA_qe]
    exact engA_stocks_search
  · intro p hp
    rw [engA_search, List.mem_singleton] at hp
    subst hp
    exact by decide

theorem searchEngine_search_dedup_witness :
    ((engA.search "apple banana" 3 none).filterMap idOf?).Nodup :=
  (searchEngine_search_dedup engA "apple banana" 3 none (by decide)).1

end FinRag
